import Mathlib

/-!
Verification development for the `minimal_latency_in_sequence_buffer` repository.

The development shallowly embeds the C++ sources:
  * `include/minimal_latency_buffer/types.hpp` (TimeData, remove_indices),
  * `include/minimal_latency_buffer/stream_characteristics_estimator.hpp`,
  * `include/minimal_latency_buffer/fixed_lag_buffer.hpp`,
  * `include/minimal_latency_buffer/minimal_latency_buffer.hpp`.

Modelling conventions:
  * `Time` and `Duration` (int64 nanosecond counts) are embedded as `ℤ`.
  * C++ `double` arithmetic on estimator state is embedded exactly as
    fractions (`Dbl` below): the estimator only ever adds, subtracts and
    multiplies small rationals, so exact arithmetic mirrors the
    real-number semantics of the algorithm.  Transcendental library
    calls (`std::sqrt`, `std::hypot`, `boost::math::quantile`) are kept
    abstract as a record of function parameters (`RealOps`); every
    concrete evaluation below only applies them at arguments where the
    code's own zero checks make the result irrelevant or force it
    (e.g. `sqrt 0 = 0`).
  * `std::vector` is a `List`, indices are `ℕ`, `vec.at(i)` is `List.getD`.
  * `std::unordered_map` iteration order is unspecified in C++; it is
    modelled as insertion order (`List` of key/value pairs).
  * Fallible operations are `Option`/`Except` valued; in particular an
    invalid iterator range in `remove_indices` (undefined behaviour in
    C++) yields `none`.
  * The payload type (`Data`, an opaque moved value) is embedded as `ℕ`.
-/

/-- Exact fraction arithmetic standing in for C++ `double` values.
`den` is kept positive by construction.  Values are normalised with a
fuel-bounded gcd so that kernel evaluation stays cheap; when the fuel
would run out the value is simply left unreduced (same rational). -/
structure Dbl where
  num : ℤ
  den : ℕ
deriving DecidableEq

/-- Fuel-bounded Euclidean gcd (returns 1 when out of fuel, which only
affects how reduced the representation is, never the value). -/
def gcdF : ℕ → ℕ → ℕ → ℕ
  | 0, _, _ => 1
  | _ + 1, 0, b => b
  | f + 1, a + 1, b => gcdF f (b % (a + 1)) (a + 1)

/-- Normalise a fraction (value preserved). -/
def Dbl.norm (x : Dbl) : Dbl :=
  let g := gcdF 100 x.num.natAbs x.den
  if g = 0 then x else ⟨x.num / (g : ℤ), x.den / g⟩

def Dbl.ofInt (n : ℤ) : Dbl := ⟨n, 1⟩

def Dbl.add (x y : Dbl) : Dbl :=
  Dbl.norm ⟨x.num * (y.den : ℤ) + y.num * (x.den : ℤ), x.den * y.den⟩

def Dbl.sub (x y : Dbl) : Dbl :=
  Dbl.norm ⟨x.num * (y.den : ℤ) - y.num * (x.den : ℤ), x.den * y.den⟩

def Dbl.mul (x y : Dbl) : Dbl :=
  Dbl.norm ⟨x.num * y.num, x.den * y.den⟩

/-- Value-level order on fractions (cross multiplication; `den > 0`). -/
instance : LT Dbl := ⟨fun x y => x.num * (y.den : ℤ) < y.num * (x.den : ℤ)⟩

instance : LE Dbl := ⟨fun x y => x.num * (y.den : ℤ) ≤ y.num * (x.den : ℤ)⟩

instance (x y : Dbl) : Decidable (x < y) :=
  inferInstanceAs (Decidable (x.num * (y.den : ℤ) < y.num * (x.den : ℤ)))

instance (x y : Dbl) : Decidable (x ≤ y) :=
  inferInstanceAs (Decidable (x.num * (y.den : ℤ) ≤ y.num * (x.den : ℤ)))

/-- `static_cast<int64_t>(double)`: truncation toward zero. -/
def truncD (x : Dbl) : ℤ := Int.tdiv x.num (x.den : ℤ)

/-- `std::clamp(v, lo, hi)`. -/
def clampZ (v lo hi : ℤ) : ℤ := max lo (min v hi)

/-- Abstract stand-ins for the floating point library functions used by
the buffer: `std::sqrt`, `boost::math::quantile(normal(0, sigma), p)`
(packaged as a function of `(sigma, p)`), and `std::hypot`. -/
structure RealOps where
  sqrt : Dbl → Dbl
  quantile : Dbl → Dbl → Dbl
  hypot : Dbl → Dbl → Dbl

/-- `BufferMode` from `types.hpp`. -/
inductive BufferMode where
  | SINGLE
  | BATCH
  | MATCH
deriving DecidableEq

/-- `PushReturn` from `types.hpp`. -/
inductive PushReturn where
  | OK
  | RESET
deriving DecidableEq

/-- `TimeData` from `types.hpp`: the sole queued entity.  A sample with
`data = none` is a placeholder. -/
structure Elem where
  id : ℕ
  meas_time : ℤ
  receipt_time : ℤ
  earliest_estimated_meas_time : ℤ
  latest_receipt_time : ℤ
  data : Option ℕ
  created_placeholder : Bool
deriving DecidableEq

/-- `TimeData::is_placeholder`. -/
def Elem.isPH (e : Elem) : Bool := e.data.isNone

/-- Default element used to realise `vec.at(i)` as `List.getD`; every
access in the model is in range. -/
def dElem : Elem := ⟨0, 0, 0, 0, 0, none, false⟩

/-- A real sample as constructed by both `push` implementations:
`TimeData_t{id, meas_time, receipt_time, meas_time, receipt_time, data}`. -/
def Elem.real (id : ℕ) (meas_time receipt_time : ℤ) (payload : ℕ) : Elem :=
  ⟨id, meas_time, receipt_time, meas_time, receipt_time, some payload, false⟩

/-- `MeasTimeComparator` ordering. -/
def measLE (a b : Elem) : Prop := a.meas_time ≤ b.meas_time

instance : DecidableRel measLE := fun a b =>
  inferInstanceAs (Decidable (a.meas_time ≤ b.meas_time))

instance : IsTotal Elem measLE := ⟨fun a b => Int.le_total a.meas_time b.meas_time⟩

instance : IsTrans Elem measLE := ⟨fun _ _ _ h h' => le_trans h h'⟩

/-- `std::sort(_data.begin(), _data.end(), MeasTimeComparator_t())`.
`std::sort` guarantees a sorted permutation (tie order unspecified);
modelled by insertion sort. -/
def sortByMeas (l : List Elem) : List Elem := List.insertionSort measLE l

/-- `std::sort` on an index list. -/
def sortNat (l : List ℕ) : List ℕ := List.insertionSort (· ≤ ·) l

/-- `PopReturn` from `types.hpp`. -/
structure PopRet where
  buffer_time : ℤ
  data : List Elem
  discarded_data : List Elem
deriving DecidableEq

/-! ## `remove_indices` (types.hpp, lines 95-137)

The C++ copies the surviving block `[block_start, block_end)` between
consecutive sorted indices.  Such a block is a valid iterator range only
when `block_start ≤ block_end ≤ vec.size()`; otherwise `std::move` over
it is undefined behaviour, modelled as `none`. -/

/-- Copy of the block `[s, e)` of `vec`; `none` when the range is
invalid (C++ undefined behaviour). -/
def copyBlock {α : Type} (vec : List α) (s e : ℕ) : Option (List α) :=
  if s = e then some []
  else if s < e ∧ e ≤ vec.length then some ((vec.drop s).take (e - s))
  else none

/-- The block-copy loop of `remove_indices` over the sorted index list,
starting with `block_start = bs`; the final block runs to `vec.end()`. -/
def removeIndicesAux {α : Type} (vec : List α) : List ℕ → ℕ → Option (List α)
  | [], bs => copyBlock vec bs vec.length
  | i :: rest, bs =>
    match copyBlock vec bs i with
    | none => none
    | some blk =>
      match removeIndicesAux vec rest (i + 1) with
      | none => none
      | some tail => some (blk ++ tail)

/-- `remove_indices(vec, idx_begin, idx_end)` from `types.hpp`. -/
def remove_indices {α : Type} (vec : List α) (inds : List ℕ) : Option (List α) :=
  if inds.isEmpty then some vec else removeIndicesAux vec (sortNat inds) 0

/-! ## Stream characteristics estimator
(`stream_characteristics_estimator.hpp`) -/

/-- The estimator's per-quantity `State { mean, variance }`. -/
structure EstStat where
  mean : Dbl
  variance : Dbl
deriving DecidableEq

/-- Full estimator state (`StreamCharacteristicsEstimator` members). -/
structure EstState where
  num_updates : ℕ
  last_meas_time : ℤ
  current_time : ℤ
  alpha : Dbl
  period_state : EstStat
  latency_state : EstStat
deriving DecidableEq

namespace Estimator

/-- Constructor: anchors stored, latency mean initialised to
`current_time - meas_time`, everything else zero.  The default
smoothing factor is `alpha = 0.05`. -/
def init (current_time meas_time : ℤ) : EstState :=
  { num_updates := 0
    last_meas_time := meas_time
    current_time := current_time
    alpha := ⟨1, 20⟩
    period_state := ⟨⟨0, 1⟩, ⟨0, 1⟩⟩
    latency_state := ⟨Dbl.ofInt (current_time - meas_time), ⟨0, 1⟩⟩ }

/-- `updateEstimates(state, estimate, update_variance)`. -/
def updateEstimates (alpha : Dbl) (st : EstStat) (x : Dbl) (update_variance : Bool) : EstStat :=
  let diff := x.sub st.mean
  let increment := alpha.mul diff
  let mean := st.mean.add increment
  let variance :=
    if update_variance then ((Dbl.ofInt 1).sub alpha).mul (st.variance.add (diff.mul increment))
    else st.variance
  ⟨mean, variance⟩

/-- `updatePeriodEstimate(estimate, num_missing_measurements)`.
`Except.error ()` is the `throw std::runtime_error` (EstimatorDesync)
path; the throw happens before any member write, so erroring leaves the
C++ object unchanged. -/
def updatePeriodEstimate (est : EstState) (estimate : Dbl) (num_missing : ℕ) :
    Except Unit EstStat :=
  if est.num_updates = 0 then
    Except.ok ⟨estimate, est.period_state.variance⟩
  else if est.num_updates = 1 then
    let first_estimate := est.period_state.mean
    let s1 := updateEstimates est.alpha est.period_state estimate false
    Except.ok ⟨s1.mean, ((first_estimate.sub s1.mean).mul (first_estimate.sub s1.mean)).add
      ((estimate.sub s1.mean).mul (estimate.sub s1.mean))⟩
  else
    let corrected := estimate.sub ((Dbl.ofInt (num_missing : ℤ)).mul est.period_state.mean)
    if corrected < Dbl.ofInt 0 then
      if 10 < est.num_updates then Except.error ()
      else Except.ok est.period_state
    else Except.ok (updateEstimates est.alpha est.period_state corrected true)

/-- `updateLatencyEstimate(estimate)`. -/
def updateLatencyEstimate (est : EstState) (estimate : Dbl) : EstStat :=
  if est.num_updates = 0 then
    let s1 := updateEstimates est.alpha est.latency_state estimate false
    let first_estimate := Dbl.ofInt (est.current_time - est.last_meas_time)
    ⟨s1.mean, ((first_estimate.sub s1.mean).mul (first_estimate.sub s1.mean)).add
      ((estimate.sub s1.mean).mul (estimate.sub s1.mean))⟩
  else updateEstimates est.alpha est.latency_state estimate true

/-- `update(current_time, meas_time, num_missing_measurements)`.  The
period update may throw (EstimatorDesync); the exception propagates
before the latency update, the anchor writes and the counter increment,
so on `error` the estimator is unchanged. -/
def update (est : EstState) (current_time meas_time : ℤ) (num_missing : ℕ) :
    Except Unit EstState :=
  let estimated_latency := Dbl.ofInt (current_time - meas_time)
  let estimated_period := Dbl.ofInt (meas_time - est.last_meas_time)
  match updatePeriodEstimate est estimated_period num_missing with
  | Except.error e => Except.error e
  | Except.ok pst =>
    Except.ok { est with
      period_state := pst
      latency_state := updateLatencyEstimate est estimated_latency
      last_meas_time := meas_time
      current_time := current_time
      num_updates := est.num_updates + 1 }

/-- `updateLatencyOnly(current_time, meas_time)`: latency state and
anchors advance, `num_updates` does not. -/
def updateLatencyOnly (est : EstState) (current_time meas_time : ℤ) : EstState :=
  let estimated_latency := Dbl.ofInt (current_time - meas_time)
  { est with
    latency_state := updateLatencyEstimate est estimated_latency
    last_meas_time := meas_time
    current_time := current_time }

/-- `isInitialized()`. -/
def isInit (est : EstState) : Prop := 2 ≤ est.num_updates

instance (est : EstState) : Decidable (isInit est) :=
  inferInstanceAs (Decidable (2 ≤ est.num_updates))

/-- `period()` (cast of the double mean to an integer duration). -/
def period (est : EstState) : ℤ := truncD est.period_state.mean

/-- `latency()`. -/
def latency (est : EstState) : ℤ := truncD est.latency_state.mean

/-- `period_stddev()` (integer cast of `sqrt(variance)`). -/
def period_stddev (ops : RealOps) (est : EstState) : ℤ := truncD (ops.sqrt est.period_state.variance)

/-- `latency_stddev()`. -/
def latency_stddev (ops : RealOps) (est : EstState) : ℤ := truncD (ops.sqrt est.latency_state.variance)

end Estimator

/-- `Except` fallback: the buffer catches the estimator's desync
exception and keeps the previous estimator state. -/
def estCatch (r : Except Unit EstState) (old : EstState) : EstState :=
  match r with
  | Except.ok e => e
  | Except.error _ => old

/-! ## Fixed-lag buffer (`fixed_lag_buffer.hpp`) -/

/-- `FixedLagBuffer::Params` (the delay parameters only enter through
the precomputed `_fixed_lag_delay`, carried in `FLState`). -/
structure FLParams where
  mode : BufferMode
  reset_threshold : ℤ
  batch_max_delta : ℤ
  match_reference_stream : ℕ
  match_num_streams : ℕ
deriving DecidableEq

/-- `FixedLagBuffer` member state.  `fixed_lag` is `_fixed_lag_delay`,
computed once in the constructor from `delay_mean`, `delay_stddev`,
`delay_quantile` and (in batch mode) `batch.max_delta`. -/
structure FLState where
  params : FLParams
  fixed_lag : ℤ
  data : List Elem
  buffer_time : ℤ
  current_time : ℤ
deriving DecidableEq

/-- `FixedLagBuffer::reset()`. -/
def flReset (s : FLState) : FLState :=
  { s with data := [], buffer_time := 0, current_time := 0 }

/-- `FixedLagBuffer::push`. -/
def flPush (s : FLState) (id : ℕ) (receipt_time meas_time : ℤ) (payload : ℕ) :
    FLState × PushReturn :=
  if s.params.reset_threshold < s.current_time - receipt_time then
    (flReset s, PushReturn.RESET)
  else
    ({ s with data := sortByMeas (s.data ++ [Elem.real id meas_time receipt_time payload]) },
      PushReturn.OK)

/-- The index walk at the top of `FixedLagBuffer::pop` (lines 112-128):
discard below `buffer_time`, output up to the reference time, break at
the first newer element.  Returns `(discard_inds, output_inds)`. -/
def flWalkAux (buffer ref : ℤ) : List Elem → ℕ → List ℕ × List ℕ
  | [], _ => ([], [])
  | e :: rest, i =>
    if e.meas_time ≤ buffer then
      let r := flWalkAux buffer ref rest (i + 1)
      (i :: r.1, r.2)
    else if e.meas_time ≤ ref then
      let r := flWalkAux buffer ref rest (i + 1)
      (r.1, i :: r.2)
    else ([], [])

/-- The batch extension loop of `FixedLagBuffer::pop` (lines 139-147)
over the queue suffix starting at index `j`. -/
def flBatchAux (bref : ℤ) : List Elem → ℕ → List ℕ
  | [], _ => []
  | e :: rest, j =>
    if e.meas_time < bref then j :: flBatchAux bref rest (j + 1)
    else flBatchAux bref rest (j + 1)

/-- Batch-mode replacement of the output set (lines 130-149): the first
ready index, then every later queue element within `max_delta` of it. -/
def flBatchInds (data : List Elem) (max_delta : ℤ) (out : List ℕ) : List ℕ :=
  match out with
  | [] => []
  | f :: _ =>
    let t0 := (data.getD f dElem).meas_time
    f :: flBatchAux (t0 + max_delta) (data.drop (f + 1)) (f + 1)

/-- An entry of the `MatchingMap`.  `tau = none` models the fresh
`MatchMapEntry` whose `tau` is `DBL_MAX`. -/
structure MatchEntry where
  src : ℕ
  idx : ℕ
  tau : Option ℤ
deriving DecidableEq

/-- Lookup in the matching map (`unordered_map::find`). -/
def mapFind (m : List MatchEntry) (k : ℕ) : Option MatchEntry :=
  m.find? (fun e => e.src == k)

/-- Overwrite the entry of source `k`. -/
def mapAssign (m : List MatchEntry) (k i : ℕ) (t : ℤ) : List MatchEntry :=
  m.map (fun e => if e.src = k then ⟨k, i, some t⟩ else e)

/-- `cd < entry.tau` where a fresh entry's `tau` is `DBL_MAX`. -/
def tauLt (cd : ℤ) : Option ℤ → Bool
  | none => true
  | some t => decide (cd < t)

/-- Find the first ready index whose element belongs to the reference
stream; also returns the ready indices after it (the C++ reference
search loop, which breaks at the second hit). -/
def firstRefAux (data : List Elem) (R : ℕ) : List ℕ → Option (ℕ × List ℕ)
  | [] => none
  | i :: rest =>
    if (data.getD i dElem).id = R then some (i, rest) else firstRefAux data R rest

/-- The candidate scan of `FixedLagBuffer::runMatching` (lines 248-281)
over the whole queue, with the better-for-next break.  The pair is
`(matching_map, found_better_for_next)`. -/
def flCandAux (data : List Elem) (R : ℕ) (tRef tNext : ℤ) :
    List ℕ → List MatchEntry × Bool → List MatchEntry × Bool
  | [], acc => acc
  | i :: rest, acc =>
    let e := data.getD i dElem
    if e.id = R then flCandAux data R tRef tNext rest acc
    else
      let cd := |e.meas_time - tRef|
      let nd := |e.meas_time - tNext|
      if nd < cd then
        if (mapFind acc.1 e.id).isNone then (acc.1, true) else acc
      else
        let m2 :=
          match mapFind acc.1 e.id with
          | none => acc.1 ++ [⟨e.id, i, some cd⟩]
          | some ent => if tauLt cd ent.tau then mapAssign acc.1 e.id i cd else acc.1
        flCandAux data R tRef tNext rest (m2, acc.2)

/-- Scan phase of `FixedLagBuffer::runMatching`. -/
structure FLScan where
  found_ref : Bool
  ref_idx : ℕ
  t_ref : ℤ
  t_next : ℤ
  map : List MatchEntry
  found_better : Bool
deriving DecidableEq

/-- Body of the fixed-lag scan once the reference is found at `refIdx`
with the remaining ready indices `rest`: next-reference search in
`ready` then in the queue behind `ref_idx` (epoch if absent), then the
candidate scan over the whole queue. -/
def flMatchScanCore (data : List Elem) (R : ℕ) (refIdx : ℕ) (rest : List ℕ) : FLScan :=
  let tRef := (data.getD refIdx dElem).meas_time
  let tNext :=
    match firstRefAux data R rest with
    | some (j, _) => (data.getD j dElem).meas_time
    | none =>
      match (List.range' (refIdx + 1) (data.length - (refIdx + 1))).find?
          (fun j => (data.getD j dElem).id == R) with
      | some j => (data.getD j dElem).meas_time
      | none => 0
  let c := flCandAux data R tRef tNext (List.range data.length) ([⟨R, refIdx, some 0⟩], false)
  ⟨true, refIdx, tRef, tNext, c.1, c.2⟩

/-- `FixedLagBuffer::runMatching`, scan phase: reference search in
`ready`, then the core scan. -/
def flMatchScan (data : List Elem) (R : ℕ) (ready : List ℕ) : FLScan :=
  match firstRefAux data R ready with
  | none => ⟨false, 0, 0, 0, [], false⟩
  | some (refIdx, rest) => flMatchScanCore data R refIdx rest

/-- `FixedLagBuffer::runMatching`, decision phase (lines 283-299):
`(tuple_inds, delete_inds)`.  The tuple is the matching map's contents
in iteration order. -/
def flRunMatching (data : List Elem) (R nStreams : ℕ) (ready : List ℕ) : List ℕ × List ℕ :=
  let sc := flMatchScan data R ready
  if ¬ sc.found_ref then ([], [])
  else if sc.map.length ≠ nStreams then
    ([], if sc.found_better then [sc.ref_idx] else [])
  else (sc.map.map (fun e => e.idx), [])

/-- The `(output_inds, discard_inds)` pair of `FixedLagBuffer::pop`
after the walk and the mode-specific policy. -/
def flOutInds (s : FLState) (time : ℤ) : List ℕ × List ℕ :=
  let w := flWalkAux s.buffer_time (time - s.fixed_lag) s.data 0
  if s.params.mode = BufferMode.BATCH ∧ ¬ w.2.isEmpty then
    (flBatchInds s.data s.params.batch_max_delta w.2, w.1)
  else if s.params.mode = BufferMode.MATCH ∧ ¬ w.2.isEmpty then
    let md := flRunMatching s.data s.params.match_reference_stream
      s.params.match_num_streams w.2
    (md.1, w.1 ++ md.2)
  else (w.2, w.1)

/-- `FixedLagBuffer::pop(time)`.  `none` models the undefined behaviour
of `remove_indices` on an invalid range (duplicate indices). -/
def flPop (s : FLState) (time : ℤ) : Option (FLState × PopRet) :=
  let oi := flOutInds s time
  let output := oi.1.map (fun i => s.data.getD i dElem)
  let discarded := oi.2.map (fun i => s.data.getD i dElem)
  let nb := if output.isEmpty then s.buffer_time else (output.getLastD dElem).meas_time
  match remove_indices s.data (oi.2 ++ oi.1) with
  | none => none
  | some d2 =>
    some ({ s with data := sortByMeas d2, buffer_time := nb }, ⟨nb, output, discarded⟩)

/-- `FixedLagBuffer::getBufferTime`. -/
def flGetBufferTime (s : FLState) : ℤ := s.buffer_time

/-- `FixedLagBuffer::getCurrentTime`. -/
def flGetCurrentTime (s : FLState) : ℤ := s.current_time

/-! ## Minimal-latency buffer (`minimal_latency_buffer.hpp`) -/

/-- `MinimalLatencyBuffer::Params`. -/
structure MLParams where
  mode : BufferMode
  reset_threshold : ℤ
  measurement_confidence_quantile : Dbl
  max_abs_measurement_jitter : ℤ
  wait_confidence_quantile : Dbl
  max_abs_wait_jitter : ℤ
  max_total_wait_time : ℤ
  batch_max_delta : ℤ
  match_reference_stream : ℕ
deriving DecidableEq

/-- `MinimalLatencyBuffer` member state.  `source_infos` is the
estimator map; its iteration order never matters to the code (only
`find`, `size`, key update), the list keeps insertion order. -/
structure MLState where
  params : MLParams
  data : List Elem
  source_infos : List (ℕ × EstState)
  buffer_time : ℤ
  current_time : ℤ
deriving DecidableEq

/-- `_source_infos.find(id)`. -/
def estFind (infos : List (ℕ × EstState)) (id : ℕ) : Option EstState :=
  (infos.find? (fun kv => kv.1 == id)).map (fun kv => kv.2)

/-- Update the estimator stored under `id`. -/
def estSet (infos : List (ℕ × EstState)) (id : ℕ) (est : EstState) : List (ℕ × EstState) :=
  infos.map (fun kv => if kv.1 = id then (id, est) else kv)

/-- `MinimalLatencyBuffer::reset()`. -/
def mlReset (s : MLState) : MLState :=
  { s with data := [], source_infos := [], buffer_time := 0, current_time := 0 }

/-- `MinimalLatencyBuffer::createPlaceholder(id, meas_time, k)`
(lines 750-812).  Callers guarantee the estimator is initialised. -/
def createPlaceholder (ops : RealOps) (p : MLParams) (est : EstState) (id : ℕ)
    (meas_time : ℤ) (k : ℕ) : Elem :=
  let period_offset : ℤ := (k : ℤ) * Estimator.period est
  let sd : ℤ := Estimator.period_stddev ops est
  let period_variance : Dbl := (Dbl.ofInt sd).mul (Dbl.ofInt sd)
  let period_stddev_sum : Dbl := ops.sqrt ((Dbl.ofInt (k : ℤ)).mul period_variance)
  let meas_quantile_limited : ℤ :=
    if Dbl.ofInt 0 < period_stddev_sum then
      clampZ (truncD (ops.quantile period_stddev_sum
          (((Dbl.ofInt 1).sub p.measurement_confidence_quantile).mul ⟨1, 2⟩)))
        (- p.max_abs_measurement_jitter) p.max_abs_measurement_jitter
    else 0
  let latStd : ℤ := Estimator.latency_stddev ops est
  let wait_quantile_limited : ℤ :=
    if 0 < latStd then
      clampZ (truncD (ops.quantile (ops.hypot period_stddev_sum (Dbl.ofInt latStd))
          ((Dbl.ofInt 1).sub (((Dbl.ofInt 1).sub p.wait_confidence_quantile).mul ⟨1, 2⟩))))
        (- p.max_abs_wait_jitter) p.max_abs_wait_jitter
    else 0
  let earliest := meas_time + period_offset + meas_quantile_limited
  let latest := meas_time + period_offset +
    min (Estimator.latency est + wait_quantile_limited) p.max_total_wait_time
  ⟨id, earliest, latest, earliest, latest, none, false⟩

/-- The expansion loop inside `create_placeholders` (lines 734-746):
placeholders `k, k+1, ...` until one lands past `buffer_time` (that one
keeps `created_placeholder = false`), at most `fuel` in total. -/
def phLoop (ops : RealOps) (p : MLParams) (est : EstState) (id : ℕ)
    (meas_time buffer_time : ℤ) : ℕ → ℕ → List Elem
  | 0, _ => []
  | fuel + 1, k =>
    let ph := createPlaceholder ops p est id meas_time k
    if buffer_time < ph.earliest_estimated_meas_time then [ph]
    else { ph with created_placeholder := true } ::
      phLoop ops p est id meas_time buffer_time fuel (k + 1)

/-- `MinimalLatencyBuffer::create_placeholders(element)` (lines
721-748): no-op unless the element's source estimator is initialised
and the element has not expanded before; otherwise marks the element
and returns up to `MAX_INSERTED_PLACEHOLDERS = 10` placeholders. -/
def create_placeholders (ops : RealOps) (p : MLParams) (infos : List (ℕ × EstState))
    (buffer_time : ℤ) (e : Elem) : Elem × List Elem :=
  match estFind infos e.id with
  | none => (e, [])
  | some est =>
    if ¬ Estimator.isInit est ∨ e.created_placeholder then (e, [])
    else ({ e with created_placeholder := true },
      phLoop ops p est e.id e.meas_time buffer_time 10 1)

/-- Result of the placeholder search in `push` (lines 180-199). -/
structure PHScan where
  minDist : ℤ
  best : Option ℕ
  num_missed : ℕ
deriving DecidableEq

/-- Scan for the best matching placeholder of `id` and count the missed
ones (placeholders older than the new sample). -/
def phScanAux (id : ℕ) (meas_time : ℤ) : List Elem → ℕ → PHScan → PHScan
  | [], _, acc => acc
  | e :: rest, i, acc =>
    if e.id = id ∧ e.isPH then
      let acc1 :=
        if e.meas_time < meas_time then { acc with num_missed := acc.num_missed + 1 } else acc
      let acc2 :=
        if |e.meas_time - meas_time| < acc1.minDist then
          { acc1 with minDist := |e.meas_time - meas_time|, best := some i }
        else acc1
      phScanAux id meas_time rest (i + 1) acc2
    else phScanAux id meas_time rest (i + 1) acc

/-- `MinimalLatencyBuffer::push` (lines 149-276). -/
def mlPush (ops : RealOps) (s : MLState) (id : ℕ) (receipt_time meas_time : ℤ)
    (payload : ℕ) : MLState × PushReturn :=
  if s.params.reset_threshold < s.current_time - receipt_time then
    (mlReset s, PushReturn.RESET)
  else
    let cur := max s.current_time receipt_time
    match estFind s.source_infos id with
    | none =>
      ({ s with current_time := cur
                source_infos := s.source_infos ++ [(id, Estimator.init receipt_time meas_time)]
                data := sortByMeas (s.data ++ [Elem.real id meas_time receipt_time payload]) },
        PushReturn.OK)
    | some est =>
      let minD := Int.tdiv (Estimator.period est) 2
      let sc := phScanAux id meas_time s.data 0 ⟨minD, none, 0⟩
      let step : List Elem × EstState :=
        match sc.best with
        | some b =>
          let missed :=
            if 0 < sc.num_missed ∧ (s.data.getD b dElem).meas_time < meas_time then
              sc.num_missed - 1
            else sc.num_missed
          let eRepl := { s.data.getD b dElem with
            data := some payload, meas_time := meas_time, receipt_time := receipt_time }
          let ex := create_placeholders ops s.params s.source_infos s.buffer_time eRepl
          let est2 :=
            if ¬ Estimator.isInit est then estCatch (Estimator.update est receipt_time meas_time 0) est
            else estCatch (Estimator.update est receipt_time meas_time missed) est
          ((s.data.set b ex.1) ++ ex.2, est2)
        | none =>
          let eNew := Elem.real id meas_time receipt_time payload
          let ex := create_placeholders ops s.params s.source_infos s.buffer_time eNew
          let est2 :=
            if ¬ Estimator.isInit est then estCatch (Estimator.update est receipt_time meas_time 0) est
            else Estimator.updateLatencyOnly est receipt_time meas_time
          ((s.data ++ ex.2) ++ [ex.1], est2)
      let swept := step.1.filter
        (fun e => ¬ (e.id = id ∧ e.isPH ∧ e.meas_time < meas_time))
      ({ s with current_time := cur
                data := sortByMeas swept
                source_infos := estSet s.source_infos id step.2 },
        PushReturn.OK)

/-- Result of the queue walk in `MinimalLatencyBuffer::pop`
(lines 297-339). -/
structure MLWalkRes where
  output : List ℕ
  discard : List ℕ
  del : List ℕ
  carry : List Elem
  time : ℤ
  newData : List Elem
deriving DecidableEq

/-- The queue walk of `MinimalLatencyBuffer::pop`: classify each
element (discard below `buffer_time`, output real samples up to `time`,
break at the first pending placeholder or future sample), run
placeholder expansion on every visited element (clamping `time` to
freshly minted expectations) and stage new placeholders in `carry`.
`newData` is the queue after the walk's flag mutations. -/
def mlWalkAux (ops : RealOps) (p : MLParams) (infos : List (ℕ × EstState))
    (buffer_time : ℤ) : List Elem → ℕ → ℤ → MLWalkRes
  | [], _, time => ⟨[], [], [], [], time, []⟩
  | e :: rest, i, time =>
    if e.meas_time < buffer_time then
      let ex := create_placeholders ops p infos buffer_time e
      let time2 := if ex.2.isEmpty then time else min time (ex.2.getLastD dElem).meas_time
      let r := mlWalkAux ops p infos buffer_time rest (i + 1) time2
      if e.isPH then
        { r with carry := ex.2 ++ r.carry, newData := ex.1 :: r.newData }
      else
        { r with discard := i :: r.discard, del := i :: r.del,
                 carry := ex.2 ++ r.carry, newData := ex.1 :: r.newData }
    else if e.isPH then
      if time ≤ e.receipt_time then ⟨[], [], [], [], time, e :: rest⟩
      else
        let ex := create_placeholders ops p infos buffer_time e
        let time2 := if ex.2.isEmpty then time else min time (ex.2.getLastD dElem).meas_time
        let r := mlWalkAux ops p infos buffer_time rest (i + 1) time2
        { r with carry := ex.2 ++ r.carry, newData := ex.1 :: r.newData }
    else
      if time < e.meas_time then ⟨[], [], [], [], time, e :: rest⟩
      else
        let ex := create_placeholders ops p infos buffer_time e
        let time2 := if ex.2.isEmpty then time else min time (ex.2.getLastD dElem).meas_time
        let r := mlWalkAux ops p infos buffer_time rest (i + 1) time2
        { r with output := i :: r.output,
                 carry := ex.2 ++ r.carry, newData := ex.1 :: r.newData }

/-- `MinimalLatencyBuffer::runBatching` (lines 390-419): suppress the
whole output when a placeholder at or past the last ready index could
still complete the batch. -/
def mlRunBatching (data : List Elem) (max_delta : ℤ) (ready : List ℕ) (time : ℤ) : List ℕ :=
  let t0 := (data.getD (ready.headD 0) dElem).meas_time
  let found := (data.drop (ready.getLastD 0)).any
    (fun e => e.isPH && decide (e.earliest_estimated_meas_time - t0 < max_delta)
      && decide (time < e.latest_receipt_time))
  if found then [] else ready

/-- Accumulator of the ready-set candidate scan of
`MinimalLatencyBuffer::runMatching` (lines 494-534). -/
structure MLReadyScan where
  map : List MatchEntry
  latest : ℕ
deriving DecidableEq

/-- Candidate scan over the sorted ready indices (tracks
`latest_data_idx`; breaks at the first better-for-next element). -/
def mlReadyScanAux (data : List Elem) (R : ℕ) (tRef tNext : ℤ) :
    List ℕ → MLReadyScan → MLReadyScan
  | [], acc => acc
  | i :: rest, acc =>
    let acc1 : MLReadyScan := { acc with latest := i }
    let e := data.getD i dElem
    if e.id = R then mlReadyScanAux data R tRef tNext rest acc1
    else
      let cd := |e.meas_time - tRef|
      let nd := |e.meas_time - tNext|
      if nd < cd then acc1
      else
        let m2 :=
          match mapFind acc1.map e.id with
          | none => acc1.map ++ [⟨e.id, i, some cd⟩]
          | some ent => if tauLt cd ent.tau then mapAssign acc1.map e.id i cd else acc1.map
        mlReadyScanAux data R tRef tNext rest ⟨m2, acc1.latest⟩

/-- The scan beyond `latest_data_idx` (lines 542-572): looks for an
anticipated better-fitting candidate; `unordered_map::operator[]`
creates a fresh entry before the comparison, so an unseen source also
sets the flag (and leaves the fresh entry in the map). -/
def mlBeyondAux (data : List Elem) (R : ℕ) (tRef tNext : ℤ) :
    List ℕ → List MatchEntry × Bool → List MatchEntry × Bool
  | [], acc => acc
  | i :: rest, acc =>
    let e := data.getD i dElem
    if e.id = R then mlBeyondAux data R tRef tNext rest acc
    else
      let cd := |e.meas_time - tRef|
      let nd := |e.meas_time - tNext|
      if nd < cd then acc
      else
        match mapFind acc.1 e.id with
        | none => (acc.1 ++ [⟨e.id, 0, none⟩], true)
        | some ent =>
          if tauLt cd ent.tau then (acc.1, true)
          else mlBeyondAux data R tRef tNext rest acc

/-- Scan phase of `MinimalLatencyBuffer::runMatching`. -/
structure MLScan where
  found_ref : Bool
  ref_idx : ℕ
  t_ref : ℤ
  t_next : ℤ
  map : List MatchEntry
  found_better : Bool
  latest : ℕ
deriving DecidableEq

/-- Body of the minimal-latency scan once the reference is found at
`refIdx` with remaining sorted ready indices `rest`: next reference
from `ready`, else `t_ref + period` from the estimator, else epoch,
then the candidate scan over `ready` and the scan beyond it. -/
def mlMatchScanCore (data : List Elem) (infos : List (ℕ × EstState)) (R : ℕ)
    (rdy : List ℕ) (refIdx : ℕ) (rest : List ℕ) : MLScan :=
  let tRef := (data.getD refIdx dElem).meas_time
  let tNext :=
    match firstRefAux data R rest with
    | some (j, _) => (data.getD j dElem).meas_time
    | none =>
      match estFind infos R with
      | some est => tRef + Estimator.period est
      | none => 0
  let rs := mlReadyScanAux data R tRef tNext rdy ⟨[⟨R, refIdx, some 0⟩], 0⟩
  let bs := mlBeyondAux data R tRef tNext
    (List.range' (rs.latest + 1) (data.length - (rs.latest + 1))) (rs.map, false)
  ⟨true, refIdx, tRef, tNext, bs.1, bs.2, rs.latest⟩

/-- `MinimalLatencyBuffer::runMatching`, scan phase (lines 426-572):
sort the ready set, find the reference, then the core scan. -/
def mlMatchScan (data : List Elem) (infos : List (ℕ × EstState)) (R : ℕ)
    (ready : List ℕ) : MLScan :=
  let rdy := sortNat ready
  match firstRefAux data R rdy with
  | none => ⟨false, 0, 0, 0, [], false, 0⟩
  | some (refIdx, rest) => mlMatchScanCore data infos R rdy refIdx rest

/-- `MinimalLatencyBuffer::runMatching`, decision phase (lines
574-594): with an incomplete map the reference is deleted
unconditionally; with a complete map and a better anticipated sample
the buffer waits; otherwise the tuple is emitted in map iteration
order. -/
def mlRunMatching (data : List Elem) (infos : List (ℕ × EstState)) (R : ℕ)
    (ready : List ℕ) : List ℕ × List ℕ :=
  let sc := mlMatchScan data infos R ready
  if ¬ sc.found_ref then ([], [])
  else if sc.map.length ≠ infos.length then ([], [sc.ref_idx])
  else if sc.found_better then ([], [])
  else (sc.map.map (fun e => e.idx), [])

/-- The `(output_inds, match_delete_inds)` pair of
`MinimalLatencyBuffer::pop` after the walk and the policy step. -/
def mlOutInds (ops : RealOps) (s : MLState) (time : ℤ) : List ℕ × List ℕ :=
  let w := mlWalkAux ops s.params s.source_infos s.buffer_time s.data 0 time
  if s.params.mode = BufferMode.BATCH ∧ ¬ w.output.isEmpty then
    (mlRunBatching w.newData s.params.batch_max_delta w.output w.time, ([] : List ℕ))
  else if s.params.mode = BufferMode.MATCH ∧ ¬ w.output.isEmpty then
    mlRunMatching w.newData s.source_infos s.params.match_reference_stream w.output
  else (w.output, [])

/-- `MinimalLatencyBuffer::pop(time)` (lines 278-388). -/
def mlPop (ops : RealOps) (s : MLState) (time : ℤ) : Option (MLState × PopRet) :=
  if time < s.current_time then some (s, ⟨s.buffer_time, [], []⟩)
  else
    let w := mlWalkAux ops s.params s.source_infos s.buffer_time s.data 0 time
    let step := mlOutInds ops s time
    let output := step.1.map (fun i => w.newData.getD i dElem)
    let discarded := (w.discard ++ step.2).map (fun i => w.newData.getD i dElem)
    match remove_indices w.newData ((w.del ++ step.2) ++ step.1) with
    | none => none
    | some d2 =>
      let d3 := sortByMeas (d2 ++ w.carry)
      let nb := if output.isEmpty then s.buffer_time else (output.getLastD dElem).meas_time
      some ({ s with data := d3, buffer_time := nb }, ⟨nb, output, discarded⟩)

/-- `MinimalLatencyBuffer::getBufferTime`. -/
def mlGetBufferTime (s : MLState) : ℤ := s.buffer_time

/-- `MinimalLatencyBuffer::getCurrentTime` (the `_current_time` member;
no public getter exists, pop reads it directly). -/
def mlGetCurrentTime (s : MLState) : ℤ := s.current_time

/-- A concrete `RealOps` used for closed evaluations; every call site
reached by them has a zero argument, where `sqrt 0 = 0` agrees with the
real function. -/
def opsZ : RealOps := ⟨fun _ => ⟨0, 1⟩, fun _ _ => ⟨0, 1⟩, fun _ _ => ⟨0, 1⟩⟩

/-! ## Spec-side definitions (for refinement comparisons)

These follow the specification's words, to be compared with the
definitions embedded from the source. -/

/-- Spec-side next-reference time for the fixed-lag buffer: the
`meas_time` of the next reference sample in `ready` after the
reference index, else the next reference sample further back in the
queue, else epoch. -/
def specNextRefFL (data : List Elem) (R : ℕ) (ready : List ℕ) : ℤ :=
  let notRef := fun i => !((data.getD i dElem).id == R)
  let rest := (ready.dropWhile notRef).drop 1
  match rest.find? (fun i => (data.getD i dElem).id == R) with
  | some j => (data.getD j dElem).meas_time
  | none =>
    let refIdx := (ready.dropWhile notRef).headD 0
    match (List.range' (refIdx + 1) (data.length - (refIdx + 1))).find?
        (fun j => (data.getD j dElem).id == R) with
    | some j => (data.getD j dElem).meas_time
    | none => 0

/-- Spec-side next-reference time for the minimal-latency buffer as the
code implements it (amended claim): the next reference sample in the
sorted ready set, else `t_ref + period` when the reference estimator is
known, else epoch.  No queue scan. -/
def specNextRefML (data : List Elem) (infos : List (ℕ × EstState)) (R : ℕ)
    (ready : List ℕ) : ℤ :=
  let notRef := fun i => !((data.getD i dElem).id == R)
  let rdy := sortNat ready
  let rest := (rdy.dropWhile notRef).drop 1
  match rest.find? (fun i => (data.getD i dElem).id == R) with
  | some j => (data.getD j dElem).meas_time
  | none =>
    let refIdx := (rdy.dropWhile notRef).headD 0
    match estFind infos R with
    | some est => (data.getD refIdx dElem).meas_time + Estimator.period est
    | none => 0

/-- The next-reference time as claim C7 states it for the
minimal-latency buffer: ready set first, then the queue beyond the
reference, and only then the estimator's period prediction. -/
def claimNextRefML (data : List Elem) (infos : List (ℕ × EstState)) (R : ℕ)
    (ready : List ℕ) : ℤ :=
  let notRef := fun i => !((data.getD i dElem).id == R)
  let rdy := sortNat ready
  let rest := (rdy.dropWhile notRef).drop 1
  match rest.find? (fun i => (data.getD i dElem).id == R) with
  | some j => (data.getD j dElem).meas_time
  | none =>
    let refIdx := (rdy.dropWhile notRef).headD 0
    match (List.range' (refIdx + 1) (data.length - (refIdx + 1))).find?
        (fun j => (data.getD j dElem).id == R) with
    | some j => (data.getD j dElem).meas_time
    | none =>
      match estFind infos R with
      | some est => (data.getD refIdx dElem).meas_time + Estimator.period est
      | none => 0

/-! ## Concrete states for closed evaluations -/

/-- Default pair for `Option.getD` on fixed-lag pop results. -/
def dFL : FLState × PopRet := (⟨⟨BufferMode.SINGLE, 0, 0, 0, 0⟩, 0, [], 0, 0⟩, ⟨0, [], []⟩)

/-- Default pair for `Option.getD` on minimal-latency pop results. -/
def dML : MLState × PopRet :=
  (⟨⟨BufferMode.SINGLE, 0, ⟨0, 1⟩, 0, ⟨0, 1⟩, 0, 0, 0, 0⟩, [], [], 0, 0⟩, ⟨0, [], []⟩)

/-- Minimal-latency parameters for the C1 trace (Single mode). -/
def c1Params : MLParams := ⟨BufferMode.SINGLE, 0, ⟨99, 100⟩, 1000, ⟨99, 100⟩, 1000, 1000, 10, 0⟩

/-- C1 trace: push (A, receipt 10, meas 10). -/
def c1s1 : MLState := (mlPush opsZ ⟨c1Params, [], [], 0, 0⟩ 0 10 10 0).1

/-- C1 trace: pop at 10 (releases A@10, `buffer_time` becomes 10). -/
def c1s2 : MLState := ((mlPop opsZ c1s1 10).getD dML).1

/-- C1 trace: push (B, receipt 11, meas 10) — equal to `buffer_time`. -/
def c1s3 : MLState := (mlPush opsZ c1s2 1 11 10 0).1

/-- C1 witness state: a fixed-lag buffer holding one releasable sample. -/
def c1FLState : FLState := (flPush ⟨⟨BufferMode.SINGLE, 1000, 10, 0, 0⟩, 0, [], 0, 0⟩ 0 1 5 0).1

/-- C2 reference-stream estimator (uninitialised, period mean 3). -/
def c2EstA : EstState := ⟨1, 13, 18, ⟨1, 20⟩, ⟨⟨3, 1⟩, ⟨0, 1⟩⟩, ⟨⟨5, 1⟩, ⟨0, 1⟩⟩⟩

/-- C2 second-source estimator (fresh). -/
def c2EstB : EstState := Estimator.init 11 11

/-- C2 parameters (Match mode, reference stream 0). -/
def c2Params : MLParams := ⟨BufferMode.MATCH, 0, ⟨99, 100⟩, 1000, ⟨99, 100⟩, 1000, 1000, 10, 0⟩

/-- C2 counterexample state: two known sources, but only a reference
sample in the queue; nothing better-for-next anywhere. -/
def c2State : MLState :=
  ⟨c2Params, [⟨0, 13, 13, 13, 13, some 0, false⟩], [(0, c2EstA), (1, c2EstB)], 11, 11⟩

/-- C2 witness state (fixed-lag): only the reference is ready and the
matching map stays below `num_streams = 2`. -/
def c2FLState : FLState :=
  ⟨⟨BufferMode.MATCH, 0, 10, 0, 2⟩, 0, [⟨0, 10, 12, 10, 12, some 0, false⟩], 0, 0⟩

/-- C4 witness states: `current_time = 100` so a push with receipt 10
jumps backwards past the zero threshold. -/
def c4FLState : FLState := ⟨⟨BufferMode.SINGLE, 0, 10, 0, 0⟩, 0, [Elem.real 0 50 60 0], 3, 100⟩

/-- C4 minimal-latency witness state. -/
def c4MLState : MLState :=
  ⟨c1Params, [Elem.real 0 50 60 0], [(0, Estimator.init 60 50)], 3, 100⟩

/-- C5 witness estimator: `num_updates = 11`, period mean 10. -/
def c5Est : EstState := ⟨11, 100, 105, ⟨1, 20⟩, ⟨⟨10, 1⟩, ⟨0, 1⟩⟩, ⟨⟨5, 1⟩, ⟨0, 1⟩⟩⟩

/-- C5 witness estimator for the silent-skip branch: `num_updates = 9`. -/
def c5EstSkip : EstState := ⟨9, 100, 105, ⟨1, 20⟩, ⟨⟨10, 1⟩, ⟨0, 1⟩⟩, ⟨⟨5, 1⟩, ⟨0, 1⟩⟩⟩

/-- C6 parameters: Batch mode, `max_delta = 10`, lag 10. -/
def c6Params : FLParams := ⟨BufferMode.BATCH, 0, 10, 0, 0⟩

/-- C6 counterexample state: ready spans more than `max_delta`
(samples at 1 and 20, both older than `now - lag = 30`). -/
def c6State : FLState := (flPush ((flPush ⟨c6Params, 10, [], 0, 0⟩ 0 1 1 0).1) 0 2 20 0).1

/-- C7 estimator for the reference stream: initialised, period mean 7. -/
def c7Est : EstState := ⟨2, 10, 15, ⟨1, 20⟩, ⟨⟨7, 1⟩, ⟨0, 1⟩⟩, ⟨⟨5, 1⟩, ⟨0, 1⟩⟩⟩

/-- C7 counterexample queue: the ready reference A@10 and a second real
reference sample A@30 further back in the queue. -/
def c7Data : List Elem := [Elem.real 0 10 15 0, Elem.real 0 30 35 0]

/-- C8 parameters (reset threshold 1000 so the backward pushes pass). -/
def c8Params : MLParams := ⟨BufferMode.SINGLE, 1000, ⟨99, 100⟩, 1000, ⟨99, 100⟩, 1000, 1000, 10, 0⟩

/-- C8 trace: three initialising pushes (meas 110, 120, 130), one push
at 140 (first placeholder), then eleven pushes with decreasing
measurement times — each leaves the surviving placeholders in place and
adds a new one. -/
def c8Pushes : List (ℤ × ℤ) :=
  [(115, 110), (125, 120), (135, 130), (145, 140), (144, 139), (143, 138), (142, 137),
    (141, 136), (140, 135), (139, 134), (138, 133), (137, 132), (136, 131), (135, 130),
    (134, 129)]

/-- C8 final state after folding the pushes. -/
def c8State : MLState :=
  c8Pushes.foldl (fun s pr => (mlPush opsZ s 0 pr.1 pr.2 0).1) ⟨c8Params, [], [], 0, 0⟩

/-- C9 parameters: Match mode, reference stream 0, two streams, no lag. -/
def c9Params : FLParams := ⟨BufferMode.MATCH, 0, 10, 0, 2⟩

/-- C9 counterexample state: B@99 before A@100 in the queue. -/
def c9State : FLState := (flPush ((flPush ⟨c9Params, 0, [], 0, 0⟩ 1 1 99 0).1) 0 2 100 0).1

/-- C9 witness state: a single-mode fixed-lag buffer holding two
releasable samples. -/
def c9FLState : FLState :=
  (flPush ((flPush ⟨⟨BufferMode.SINGLE, 1000, 10, 0, 0⟩, 0, [], 0, 0⟩ 0 1 5 0).1) 1 2 7 0).1

/-- C9 witness state (minimal-latency): two real samples, no
estimators initialised far enough for placeholders. -/
def c9MLState : MLState := (mlPush opsZ ((mlPush opsZ ⟨c1Params, [], [], 0, 0⟩ 0 3 1 0).1) 1 4 2 0).1

/-- C10 witness states. -/
def c10FLState : FLState := ⟨⟨BufferMode.SINGLE, 0, 10, 0, 0⟩, 0, [], 0, 7⟩

/-- C10 minimal-latency witness state. -/
def c10MLState : MLState := ⟨c1Params, [], [], 0, 7⟩

/-! ## Theorems -/

/-- Claim C3: `remove_indices` removes the listed positions and keeps
the order of the rest.  This holds for duplicate-free index lists, but
the claim also admits duplicate indices; with a duplicate the second
occurrence makes `block_start = i + 1 > block_end = i`, so the C++
`std::move` runs over an invalid iterator range (undefined behaviour,
`none` in the model).  Evaluation at the failing input `[10, 20, 30]`
with indices `[1, 1]`, together with the intended behaviour at the
duplicate-free `[1]`. -/
theorem remove_indices_duplicate_invalid :
    remove_indices ([10, 20, 30] : List ℤ) [1, 1] = none
    ∧ remove_indices ([10, 20, 30] : List ℤ) [1] = some [10, 30] := by decide

/-- Length bound of the placeholder expansion loop. -/
theorem phLoop_length_le (ops : RealOps) (p : MLParams) (est : EstState) (id : ℕ)
    (meas_time buffer_time : ℤ) :
    ∀ (fuel k : ℕ), (phLoop ops p est id meas_time buffer_time fuel k).length ≤ fuel := by
  intro fuel
  induction fuel with
  | zero => intro k; simp [phLoop]
  | succ f ih =>
    intro k
    simp only [phLoop]
    split
    · simp
    · simpa using Nat.succ_le_succ (ih (k + 1))

/-- Claim C8 (amended): the cap of 10 placeholders is per expansion
call (`MAX_INSERTED_PLACEHOLDERS`), not a state invariant: every
`create_placeholders` call returns at most 10 placeholders.  (The state
invariant claimed — at most 10 placeholders per source in the queue at
every API boundary — is refuted by `ml_placeholder_count_exceeds_ten`.) -/
theorem create_placeholders_le_ten (ops : RealOps) (p : MLParams)
    (infos : List (ℕ × EstState)) (buffer_time : ℤ) (e : Elem) :
    (create_placeholders ops p infos buffer_time e).2.length ≤ 10 := by
  unfold create_placeholders
  rcases h : estFind infos e.id with _ | est
  · simp
  · simp only []
    split
    · simp
    · simpa using phLoop_length_le ops p est e.id e.meas_time buffer_time 10 1

set_option maxRecDepth 100000 in
/-- Claim C8, counterexample: after fifteen pushes of source 0 (three
initialising ones, then pushes with decreasing measurement times, each
of which leaves the earlier, newer placeholders alive and appends a new
one) the queue holds 12 placeholders of source 0. -/
theorem ml_placeholder_count_exceeds_ten :
    10 < c8State.data.countP (fun e => e.id == 0 && e.isPH) := by decide

set_option maxRecDepth 8000 in
/-- Claim C1, counterexample: the minimal-latency buffer discards only
`meas_time < buffer_time` (strict), so after releasing A@10 a later
sample B@10 is released with `meas_time` equal to `buffer_time` — not
strictly greater, refuting the claimed strict bound. -/
theorem ml_pop_releases_at_buffer_time :
    c1s3.buffer_time = 10
    ∧ (mlPop opsZ c1s3 11).isSome = true
    ∧ ¬ (∀ d ∈ ((mlPop opsZ c1s3 11).getD dML).2.data,
          c1s3.buffer_time < d.meas_time) := by decide

set_option maxRecDepth 8000 in
/-- Claim C2, counterexample: in the minimal-latency buffer with two
known sources but only the reference sample in the queue, no
better-for-next candidate is observed (`found_better = false`), yet the
pop discards the reference instead of waiting with an empty discard
set. -/
theorem ml_match_discards_without_better :
    (mlMatchScan c2State.data c2State.source_infos 0 [0]).found_better = false
    ∧ (mlPop opsZ c2State 13).map (fun x => x.2.discarded_data.map Elem.meas_time)
        = some [13]
    ∧ (mlPop opsZ c2State 13).map (fun x => x.2.data) = some [] := by decide

set_option maxRecDepth 8000 in
/-- Claim C6, counterexample: with `max_delta = 10` and ready samples
at measurement times 1 and 20, the batch step outputs only the sample
at 1 — the ready sample at 20 (beyond `t0 + max_delta`) is dropped from
the output, so the output does not extend the ready set. -/
theorem fl_batch_drops_far_ready :
    (flWalkAux c6State.buffer_time (40 - c6State.fixed_lag) c6State.data 0).2 = [0, 1]
    ∧ (flPop c6State 40).map (fun x => x.2.data.map Elem.meas_time) = some [1]
    ∧ ¬ c6State.data.getD 1 dElem ∈ ((flPop c6State 40).getD dFL).2.data := by decide

/-- Claim C7, counterexample: the minimal-latency `runMatching` never
scans the queue beyond `ready` for the next reference sample; with a
second real reference sample A@30 in the queue it still predicts
`t_ref + period = 17` instead of the claimed 30. -/
theorem ml_next_ref_ignores_queue :
    (mlMatchScan c7Data [(0, c7Est)] 0 [0]).found_ref = true
    ∧ claimNextRefML c7Data [(0, c7Est)] 0 [0] = 30
    ∧ (mlMatchScan c7Data [(0, c7Est)] 0 [0]).t_next ≠
        claimNextRefML c7Data [(0, c7Est)] 0 [0] := by decide

set_option maxRecDepth 8000 in
/-- Claim C9, counterexample: in match mode the output tuple is emitted
in matching-map iteration order, not measurement-time order; with queue
`[B@99, A@100]` and reference stream A the pop returns `[A@100, B@99]`,
which is not sorted by `meas_time`. -/
theorem fl_match_output_unsorted :
    (flPop c9State 100).isSome = true
    ∧ (flPop c9State 100).map (fun x => x.2.data.map Elem.meas_time) = some [100, 99]
    ∧ ¬ List.Pairwise measLE ((flPop c9State 100).getD dFL).2.data := by decide

/-- Claim C4: `push` returns `Reset` iff `current_time - receipt_time >
reset_threshold` at entry; in that case the buffer is fully reset
(queue cleared, times zeroed, estimators cleared for the
minimal-latency buffer) and the sample is not inserted; otherwise
`push` returns `Ok`. -/
theorem push_reset_iff (s : FLState) (ms : MLState) (ops : RealOps) (id : ℕ)
    (receipt_time meas_time : ℤ) (payload : ℕ) :
    ((flPush s id receipt_time meas_time payload).2 = PushReturn.RESET ↔
      s.params.reset_threshold < s.current_time - receipt_time)
    ∧ (s.params.reset_threshold < s.current_time - receipt_time →
        (flPush s id receipt_time meas_time payload).1 = flReset s)
    ∧ (¬ s.params.reset_threshold < s.current_time - receipt_time →
        (flPush s id receipt_time meas_time payload).2 = PushReturn.OK)
    ∧ ((mlPush ops ms id receipt_time meas_time payload).2 = PushReturn.RESET ↔
      ms.params.reset_threshold < ms.current_time - receipt_time)
    ∧ (ms.params.reset_threshold < ms.current_time - receipt_time →
        (mlPush ops ms id receipt_time meas_time payload).1 = mlReset ms)
    ∧ (¬ ms.params.reset_threshold < ms.current_time - receipt_time →
        (mlPush ops ms id receipt_time meas_time payload).2 = PushReturn.OK) := by
  refine ⟨?_, ?_, ?_, ?_, ?_, ?_⟩
  · unfold flPush
    split
    · simp_all
    · simp_all
  · intro h; unfold flPush; rw [if_pos h]
  · intro h; unfold flPush; rw [if_neg h]
  · unfold mlPush
    split
    · simp_all
    · rename_i h
      cases he : estFind ms.source_infos id <;> simp [he, h]
  · intro h; unfold mlPush; rw [if_pos h]
  · intro h; unfold mlPush; rw [if_neg h]
    cases he : estFind ms.source_infos id <;> simp [he]

/-- Claim C4, witness: a backward receipt triggers the reset on both
buffers; a forward receipt is accepted with `Ok`. -/
theorem push_reset_iff_witness :
    (flPush c4FLState 0 10 10 0).1 = flReset c4FLState
    ∧ (mlPush opsZ c4MLState 0 10 10 0).1 = mlReset c4MLState
    ∧ (flPush c4FLState 0 200 10 0).2 = PushReturn.OK
    ∧ (mlPush opsZ c4MLState 0 200 10 0).2 = PushReturn.OK := by
  refine ⟨?_, ?_, ?_, ?_⟩
  · exact (push_reset_iff c4FLState c4MLState opsZ 0 10 10 0).2.1 (by decide)
  · exact (push_reset_iff c4FLState c4MLState opsZ 0 10 10 0).2.2.2.2.1 (by decide)
  · exact (push_reset_iff c4FLState c4MLState opsZ 0 200 10 0).2.2.1 (by decide)
  · exact (push_reset_iff c4FLState c4MLState opsZ 0 200 10 0).2.2.2.2.2 (by decide)

/-- Claim C10: `pop` never modifies `current_time` on either buffer
(only `push` advances it and `reset` zeroes it). -/
theorem pop_preserves_current_time (s : FLState) (ms : MLState) (ops : RealOps)
    (t u : ℤ) (s' : FLState) (r : PopRet) (ms' : MLState) (mr : PopRet)
    (hf : flPop s t = some (s', r)) (hm : mlPop ops ms u = some (ms', mr)) :
    s'.current_time = s.current_time ∧ ms'.current_time = ms.current_time := by
  constructor
  · simp only [flPop] at hf
    split at hf
    · exact Option.noConfusion hf
    · rw [Option.some.injEq, Prod.mk.injEq] at hf
      obtain ⟨rfl, rfl⟩ := hf
      rfl
  · simp only [mlPop] at hm
    split at hm
    · rw [Option.some.injEq, Prod.mk.injEq] at hm
      obtain ⟨rfl, rfl⟩ := hm
      rfl
    · split at hm
      · exact Option.noConfusion hm
      · rw [Option.some.injEq, Prod.mk.injEq] at hm
        obtain ⟨rfl, rfl⟩ := hm
        rfl

/-- Claim C10, witness at concrete states. -/
theorem pop_preserves_current_time_witness :
    ((flPop c10FLState 9).getD dFL).1.current_time = c10FLState.current_time
    ∧ ((mlPop opsZ c10MLState 9).getD dML).1.current_time = c10MLState.current_time :=
  pop_preserves_current_time c10FLState c10MLState opsZ 9 9
    ((flPop c10FLState 9).getD dFL).1 ((flPop c10FLState 9).getD dFL).2
    ((mlPop opsZ c10MLState 9).getD dML).1 ((mlPop opsZ c10MLState 9).getD dML).2
    (by decide) (by decide)

/-- Claim C5: for an initialised estimator (`num_updates ≥ 2`),
`update` raises the desync error iff the corrected period estimate
`est_period - num_missing * period_mean` is negative and
`num_updates > 10` (the throw precedes every member write, so the C++
object is unchanged); when the corrected estimate is negative with
`num_updates ≤ 10` only the period state is left unchanged while the
latency update, the anchor advance and the counter increment all
happen. -/
theorem estimator_desync_iff (est : EstState) (current_time meas_time : ℤ)
    (num_missing : ℕ) (h2 : 2 ≤ est.num_updates) :
    (Estimator.update est current_time meas_time num_missing = Except.error () ↔
      ((Dbl.ofInt (meas_time - est.last_meas_time)).sub
          ((Dbl.ofInt (num_missing : ℤ)).mul est.period_state.mean) < Dbl.ofInt 0
        ∧ 10 < est.num_updates))
    ∧ (((Dbl.ofInt (meas_time - est.last_meas_time)).sub
          ((Dbl.ofInt (num_missing : ℤ)).mul est.period_state.mean) < Dbl.ofInt 0
        ∧ est.num_updates ≤ 10) →
      Estimator.update est current_time meas_time num_missing =
        Except.ok { est with
          latency_state := Estimator.updateLatencyEstimate est
            (Dbl.ofInt (current_time - meas_time))
          last_meas_time := meas_time
          current_time := current_time
          num_updates := est.num_updates + 1 }) := by
  have h0 : est.num_updates ≠ 0 := by omega
  have h1 : est.num_updates ≠ 1 := by omega
  unfold Estimator.update Estimator.updatePeriodEstimate
  simp only [if_neg h0, if_neg h1]
  by_cases hc : (Dbl.ofInt (meas_time - est.last_meas_time)).sub
      ((Dbl.ofInt (num_missing : ℤ)).mul est.period_state.mean) < Dbl.ofInt 0
  · rw [if_pos hc]
    by_cases h10 : 10 < est.num_updates
    · rw [if_pos h10]
      constructor
      · simp [hc, h10]
      · intro hsk
        omega
    · rw [if_neg h10]
      constructor
      · simp [h10]
      · intro _
        rfl
  · rw [if_neg hc]
    constructor
    · simp [hc]
    · intro hsk
      exact absurd hsk.1 hc

/-- Claim C5, witness: a desync at `num_updates = 11` and a silent
period skip at `num_updates = 9` (both with `corrected = 10 - 2·10 <
0`). -/
theorem estimator_desync_iff_witness :
    Estimator.update c5Est 115 110 2 = Except.error ()
    ∧ Estimator.update c5EstSkip 115 110 2 =
        Except.ok { c5EstSkip with
          latency_state := Estimator.updateLatencyEstimate c5EstSkip
            (Dbl.ofInt (115 - 110))
          last_meas_time := 110
          current_time := 115
          num_updates := c5EstSkip.num_updates + 1 } := by
  constructor
  · exact (estimator_desync_iff c5Est 115 110 2 (by decide)).1.mpr (by decide)
  · exact (estimator_desync_iff c5EstSkip 115 110 2 (by decide)).2 (by decide)

/-- Claim C2 (amended): with a reference found and an incomplete
matching map, the fixed-lag policy discards the reference iff a
better-for-next candidate with a still-unmatched source was observed
during its scan (which runs over the whole queue), while the
minimal-latency policy discards the reference unconditionally; the
output tuple is empty in both cases. -/
theorem match_incomplete_decision (fdata mdata : List Elem)
    (infos : List (ℕ × EstState)) (R nStreams : ℕ) (ready mready : List ℕ)
    (hfl : (flMatchScan fdata R ready).found_ref = true)
    (hlen : (flMatchScan fdata R ready).map.length ≠ nStreams)
    (hml : (mlMatchScan mdata infos R mready).found_ref = true)
    (hmlen : (mlMatchScan mdata infos R mready).map.length ≠ infos.length) :
    flRunMatching fdata R nStreams ready =
      ([], if (flMatchScan fdata R ready).found_better then
        [(flMatchScan fdata R ready).ref_idx] else [])
    ∧ mlRunMatching mdata infos R mready = ([], [(mlMatchScan mdata infos R mready).ref_idx]) := by
  constructor
  · unfold flRunMatching
    rw [if_neg (by simp [hfl]), if_pos hlen]
  · unfold mlRunMatching
    rw [if_neg (by simp [hml]), if_pos hmlen]

/-- Claim C2, witness: the fixed-lag side waits (no better-for-next
seen), the minimal-latency side discards its reference. -/
theorem match_incomplete_decision_witness :
    flRunMatching c2FLState.data 0 2 [0] = ([], [])
    ∧ mlRunMatching c2State.data c2State.source_infos 0 [0] = ([], [0]) := by
  have h := match_incomplete_decision c2FLState.data c2State.data c2State.source_infos
    0 2 [0] [0] (by decide) (by decide) (by decide) (by decide)
  refine ⟨?_, ?_⟩
  · rw [h.1]; decide
  · rw [h.2]; decide

/-- The reference-search loop over `ready` is the head of the
`dropWhile` of non-reference indices. -/
theorem firstRefAux_eq_dropWhile (data : List Elem) (R : ℕ) : ∀ (l : List ℕ),
    firstRefAux data R l =
      match l.dropWhile (fun i => !((data.getD i dElem).id == R)) with
      | [] => none
      | i :: rest => some (i, rest) := by
  intro l
  induction l with
  | nil => rfl
  | cons i rest ih =>
    rw [List.dropWhile_cons]
    by_cases h : (data.getD i dElem).id = R
    · rw [if_neg (by simpa using h)]
      simp only [firstRefAux]
      rw [if_pos h]
    · rw [if_pos (by simpa using h)]
      simp only [firstRefAux]
      rw [if_neg h, ih]

/-- The first component of the reference search is `find?`. -/
theorem firstRefAux_fst_eq_find (data : List Elem) (R : ℕ) : ∀ (l : List ℕ),
    (firstRefAux data R l).map Prod.fst
      = l.find? (fun i => (data.getD i dElem).id == R) := by
  intro l
  induction l with
  | nil => rfl
  | cons i rest ih =>
    by_cases h : (data.getD i dElem).id = R
    · rw [List.find?_cons_of_pos _ (by simpa using h)]
      simp only [firstRefAux]
      rw [if_pos h]
      rfl
    · rw [List.find?_cons_of_neg _ (by simpa using h)]
      simp only [firstRefAux]
      rw [if_neg h]
      exact ih

/-- Claim C7 (amended): the next-reference time is the `meas_time` of
the next reference sample in `ready` after the reference index; when
`ready` has none, the fixed-lag buffer scans the queue behind the
reference (else epoch), while the minimal-latency buffer goes directly
to `t_ref + period` from the reference estimator when known (else
epoch) — it never scans the queue (refuted claim part:
`ml_next_ref_ignores_queue`). -/
theorem next_ref_time_characterization (fdata mdata : List Elem)
    (infos : List (ℕ × EstState)) (R : ℕ) (ready mready : List ℕ)
    (h1 : (flMatchScan fdata R ready).found_ref = true)
    (h2 : (mlMatchScan mdata infos R mready).found_ref = true) :
    (flMatchScan fdata R ready).t_next = specNextRefFL fdata R ready
    ∧ (mlMatchScan mdata infos R mready).t_next = specNextRefML mdata infos R mready := by
  constructor
  · simp only [flMatchScan, flMatchScanCore, specNextRefFL] at h1 ⊢
    cases hfr : firstRefAux fdata R ready with
    | none => rw [hfr] at h1; simp at h1
    | some pr =>
      obtain ⟨refIdx, rest⟩ := pr
      have hdw : ready.dropWhile (fun i => !((fdata.getD i dElem).id == R))
          = refIdx :: rest := by
        have h := firstRefAux_eq_dropWhile fdata R ready
        rw [hfr] at h
        cases hd : ready.dropWhile (fun i => !((fdata.getD i dElem).id == R)) with
        | nil => rw [hd] at h; exact Option.noConfusion h
        | cons a b =>
          rw [hd, Option.some.injEq, Prod.mk.injEq] at h
          rw [h.1, h.2]
      rw [hdw]
      simp only [List.headD_cons, List.drop_succ_cons, List.drop_zero]
      cases hf2 : firstRefAux fdata R rest with
      | none =>
        have hfind : rest.find? (fun i => (fdata.getD i dElem).id == R) = none := by
          have hmap := firstRefAux_fst_eq_find fdata R rest
          rw [hf2] at hmap
          exact hmap.symm
        rw [hfind]
      | some pr2 =>
        obtain ⟨j2, r2⟩ := pr2
        have hfind : rest.find? (fun i => (fdata.getD i dElem).id == R) = some j2 := by
          have hmap := firstRefAux_fst_eq_find fdata R rest
          rw [hf2] at hmap
          exact hmap.symm
        rw [hfind]
  · simp only [mlMatchScan, mlMatchScanCore, specNextRefML] at h2 ⊢
    cases hfr : firstRefAux mdata R (sortNat mready) with
    | none => rw [hfr] at h2; simp at h2
    | some pr =>
      obtain ⟨refIdx, rest⟩ := pr
      have hdw : (sortNat mready).dropWhile (fun i => !((mdata.getD i dElem).id == R))
          = refIdx :: rest := by
        have h := firstRefAux_eq_dropWhile mdata R (sortNat mready)
        rw [hfr] at h
        cases hd : (sortNat mready).dropWhile (fun i => !((mdata.getD i dElem).id == R)) with
        | nil => rw [hd] at h; exact Option.noConfusion h
        | cons a b =>
          rw [hd, Option.some.injEq, Prod.mk.injEq] at h
          rw [h.1, h.2]
      rw [hdw]
      simp only [List.headD_cons, List.drop_succ_cons, List.drop_zero]
      cases hf2 : firstRefAux mdata R rest with
      | none =>
        have hfind : rest.find? (fun i => (mdata.getD i dElem).id == R) = none := by
          have hmap := firstRefAux_fst_eq_find mdata R rest
          rw [hf2] at hmap
          exact hmap.symm
        rw [hfind]
      | some pr2 =>
        obtain ⟨j2, r2⟩ := pr2
        have hfind : rest.find? (fun i => (mdata.getD i dElem).id == R) = some j2 := by
          have hmap := firstRefAux_fst_eq_find mdata R rest
          rw [hf2] at hmap
          exact hmap.symm
        rw [hfind]

/-- Claim C7, witness at the concrete two-sample queue. -/
theorem next_ref_time_characterization_witness :
    (flMatchScan c7Data 0 [0]).t_next = specNextRefFL c7Data 0 [0]
    ∧ (mlMatchScan c7Data [(0, c7Est)] 0 [0]).t_next
        = specNextRefML c7Data [(0, c7Est)] 0 [0] :=
  next_ref_time_characterization c7Data c7Data [(0, c7Est)] 0 [0] [0] (by decide) (by decide)

/-- The batch extension loop indexes exactly the dropped suffix. -/
theorem flBatchAux_map_getD (data : List Elem) (bref : ℤ) : ∀ (l : List Elem) (j : ℕ),
    data.drop j = l →
    (flBatchAux bref l j).map (fun i => data.getD i dElem)
      = l.filter (fun e => decide (e.meas_time < bref)) := by
  intro l
  induction l with
  | nil => intro j _; rfl
  | cons e tl ih =>
    intro j h
    have hget : data.getD j dElem = e := by
      rw [List.getD_eq_getElem?_getD, ← List.head?_drop, h]
      rfl
    have htl : data.drop (j + 1) = tl := by
      rw [← List.tail_drop, h]
      rfl
    rw [List.filter_cons]
    simp only [flBatchAux]
    by_cases hm : e.meas_time < bref
    · rw [if_pos hm, if_pos (by simpa using hm)]
      simp only [List.map_cons, hget]
      rw [ih (j + 1) htl]
    · rw [if_neg hm, if_neg (by simpa using hm)]
      rw [ih (j + 1) htl]

/-- Claim C6 (amended): in fixed-lag batch mode with a non-empty ready
set, the output is the first ready element followed by every later
queue element with `meas_time < meas_time(ready[0]) + max_delta` in
queue order — ready elements at or beyond that bound are dropped from
the output (refuted claim part: `fl_batch_drops_far_ready`) — and the
discard set is the walk's discard set, unchanged by the batch step. -/
theorem fl_batch_output_characterization (s : FLState) (time : ℤ) (s' : FLState)
    (r : PopRet) (f : ℕ) (rest : List ℕ)
    (hmode : s.params.mode = BufferMode.BATCH)
    (hw : (flWalkAux s.buffer_time (time - s.fixed_lag) s.data 0).2 = f :: rest)
    (hpop : flPop s time = some (s', r)) :
    r.data = s.data.getD f dElem ::
        (s.data.drop (f + 1)).filter
          (fun e => decide (e.meas_time < (s.data.getD f dElem).meas_time
            + s.params.batch_max_delta))
    ∧ r.discarded_data
        = (flWalkAux s.buffer_time (time - s.fixed_lag) s.data 0).1.map
            (fun i => s.data.getD i dElem) := by
  simp only [flPop, flOutInds] at hpop
  rw [hw] at hpop
  rw [if_pos ⟨hmode, by simp⟩] at hpop
  split at hpop
  · exact Option.noConfusion hpop
  · rw [Option.some.injEq, Prod.mk.injEq] at hpop
    obtain ⟨rfl, rfl⟩ := hpop
    constructor
    · show (flBatchInds s.data s.params.batch_max_delta (f :: rest)).map
        (fun i => s.data.getD i dElem) = _
      simp only [flBatchInds]
      rw [List.map_cons]
      rw [flBatchAux_map_getD s.data _ (s.data.drop (f + 1)) (f + 1) rfl]
    · rfl

set_option maxRecDepth 8000 in
/-- Claim C6, witness at the concrete batch trace. -/
theorem fl_batch_output_characterization_witness :
    ((flPop c6State 40).getD dFL).2.data = c6State.data.getD 0 dElem ::
        (c6State.data.drop (0 + 1)).filter
          (fun e => decide (e.meas_time < (c6State.data.getD 0 dElem).meas_time
            + c6State.params.batch_max_delta)) :=
  (fl_batch_output_characterization c6State 40 ((flPop c6State 40).getD dFL).1
    ((flPop c6State 40).getD dFL).2 0 [1] (by decide) (by decide) (by decide)).1

/-- Elements at in-range positions belong to the list. -/
theorem getD_mem_of_lt {α : Type} (l : List α) (d : α) (n : ℕ) (h : n < l.length) :
    l.getD n d ∈ l := by
  rw [List.getD_eq_getElem l d h]
  exact List.getElem_mem h

/-- `getLastD` of a non-empty list is a member. -/
theorem getLastD_mem_of_ne {α : Type} : ∀ (l : List α) (d : α), l ≠ [] → l.getLastD d ∈ l
  | [a], _, _ => by simp
  | a :: b :: t, d, _ => by
    rw [List.getLastD_cons]
    exact List.mem_cons_of_mem a (getLastD_mem_of_ne (b :: t) a (by simp))

/-- Indices produced by the fixed-lag walk's output set. -/
theorem flWalkAux_out_mem (buffer ref : ℤ) : ∀ (l : List Elem) (i : ℕ) (j : ℕ),
    j ∈ (flWalkAux buffer ref l i).2 →
    ∃ k, k < l.length ∧ j = i + k ∧ buffer < (l.getD k dElem).meas_time
      ∧ (l.getD k dElem).meas_time ≤ ref := by
  intro l
  induction l with
  | nil => intro i j h; simp [flWalkAux] at h
  | cons e tl ih =>
    intro i j h
    simp only [flWalkAux] at h
    by_cases h1 : e.meas_time ≤ buffer
    · rw [if_pos h1] at h
      obtain ⟨k, hk, rfl, h3, h4⟩ := ih (i + 1) j h
      exact ⟨k + 1, by simpa using hk, by omega,
        by rw [List.getD_cons_succ]; exact h3, by rw [List.getD_cons_succ]; exact h4⟩
    · rw [if_neg h1] at h
      by_cases h2 : e.meas_time ≤ ref
      · rw [if_pos h2] at h
        rcases List.mem_cons.mp h with rfl | h'
        · exact ⟨0, by simp, by omega, by rw [List.getD_cons_zero]; exact not_le.mp h1,
            by rw [List.getD_cons_zero]; exact h2⟩
        · obtain ⟨k, hk, rfl, h3, h4⟩ := ih (i + 1) j h'
          exact ⟨k + 1, by simpa using hk, by omega,
            by rw [List.getD_cons_succ]; exact h3, by rw [List.getD_cons_succ]; exact h4⟩
      · rw [if_neg h2] at h
        simp at h

/-- Indices produced by the fixed-lag walk's discard set. -/
theorem flWalkAux_disc_mem (buffer ref : ℤ) : ∀ (l : List Elem) (i : ℕ) (j : ℕ),
    j ∈ (flWalkAux buffer ref l i).1 →
    ∃ k, k < l.length ∧ j = i + k ∧ (l.getD k dElem).meas_time ≤ buffer := by
  intro l
  induction l with
  | nil => intro i j h; simp [flWalkAux] at h
  | cons e tl ih =>
    intro i j h
    simp only [flWalkAux] at h
    by_cases h1 : e.meas_time ≤ buffer
    · rw [if_pos h1] at h
      rcases List.mem_cons.mp h with rfl | h'
      · exact ⟨0, by simp, by omega, by rw [List.getD_cons_zero]; exact h1⟩
      · obtain ⟨k, hk, rfl, h3⟩ := ih (i + 1) j h'
        exact ⟨k + 1, by simpa using hk, by omega, by rw [List.getD_cons_succ]; exact h3⟩
    · rw [if_neg h1] at h
      by_cases h2 : e.meas_time ≤ ref
      · rw [if_pos h2] at h
        obtain ⟨k, hk, rfl, h3⟩ := ih (i + 1) j h
        exact ⟨k + 1, by simpa using hk, by omega, by rw [List.getD_cons_succ]; exact h3⟩
      · rw [if_neg h2] at h
        simp at h

/-- On a sorted queue, every element the walk neither discards nor
outputs lies strictly above `buffer`. -/
theorem flWalkAux_unclassified (buffer ref : ℤ) : ∀ (l : List Elem) (i : ℕ) (k : ℕ),
    l.Pairwise measLE → k < l.length →
    (i + k) ∉ (flWalkAux buffer ref l i).2 →
    (i + k) ∉ (flWalkAux buffer ref l i).1 →
    buffer < (l.getD k dElem).meas_time := by
  intro l
  induction l with
  | nil => intro i k _ hk; simp at hk
  | cons e tl ih =>
    intro i k hs hk hno hnd
    simp only [flWalkAux] at hno hnd
    by_cases h1 : e.meas_time ≤ buffer
    · rw [if_pos h1] at hno hnd
      cases k with
      | zero =>
        exfalso
        apply hnd
        show i + 0 ∈ i :: (flWalkAux buffer ref tl (i + 1)).1
        simp
      | succ k' =>
        rw [List.getD_cons_succ]
        have he : i + (k' + 1) = (i + 1) + k' := by omega
        rw [he] at hno hnd
        exact ih (i + 1) k' (List.pairwise_cons.mp hs).2 (by simpa using hk) hno
          (fun hc => hnd (List.mem_cons_of_mem _ hc))
    · rw [if_neg h1] at hno hnd
      by_cases h2 : e.meas_time ≤ ref
      · rw [if_pos h2] at hno hnd
        cases k with
        | zero => rw [List.getD_cons_zero]; exact not_le.mp h1
        | succ k' =>
          rw [List.getD_cons_succ]
          have he : i + (k' + 1) = (i + 1) + k' := by omega
          rw [he] at hno hnd
          exact ih (i + 1) k' (List.pairwise_cons.mp hs).2 (by simpa using hk)
            (fun hc => hno (List.mem_cons_of_mem _ hc)) hnd
      · cases k with
        | zero => rw [List.getD_cons_zero]; exact not_le.mp h1
        | succ k' =>
          rw [List.getD_cons_succ]
          have hmem : tl.getD k' dElem ∈ tl := getD_mem_of_lt tl dElem k' (by simpa using hk)
          exact lt_of_lt_of_le (not_le.mp h1) ((List.pairwise_cons.mp hs).1 _ hmem)

/-- The walk's output indices are strictly increasing and bounded below
by the start index. -/
theorem flWalkAux_out_pairwise (buffer ref : ℤ) : ∀ (l : List Elem) (i : ℕ),
    (flWalkAux buffer ref l i).2.Pairwise (· < ·)
      ∧ ∀ j ∈ (flWalkAux buffer ref l i).2, i ≤ j := by
  intro l
  induction l with
  | nil => intro i; simp [flWalkAux]
  | cons e tl ih =>
    intro i
    simp only [flWalkAux]
    by_cases h1 : e.meas_time ≤ buffer
    · rw [if_pos h1]
      exact ⟨(ih (i + 1)).1, fun j hj => le_trans (by omega) ((ih (i + 1)).2 j hj)⟩
    · rw [if_neg h1]
      by_cases h2 : e.meas_time ≤ ref
      · rw [if_pos h2]
        refine ⟨List.pairwise_cons.mpr ⟨fun j hj => ?_, (ih (i + 1)).1⟩, fun j hj => ?_⟩
        · exact lt_of_lt_of_le (by omega) ((ih (i + 1)).2 j hj)
        · rcases List.mem_cons.mp hj with rfl | hj'
          · exact le_refl j
          · exact le_trans (by omega) ((ih (i + 1)).2 j hj')
      · rw [if_neg h2]
        simp

/-- The batch extension loop's indices: bounds and monotonicity. -/
theorem flBatchAux_mem (bref : ℤ) : ∀ (l : List Elem) (j : ℕ),
    ((flBatchAux bref l j).Pairwise (· < ·)
      ∧ ∀ x ∈ flBatchAux bref l j, j ≤ x ∧ x < j + l.length) := by
  intro l
  induction l with
  | nil => intro j; simp [flBatchAux]
  | cons e tl ih =>
    intro j
    simp only [flBatchAux]
    by_cases hm : e.meas_time < bref
    · rw [if_pos hm]
      refine ⟨List.pairwise_cons.mpr ⟨fun x hx => ?_, (ih (j + 1)).1⟩, fun x hx => ?_⟩
      · exact lt_of_lt_of_le (by omega) ((ih (j + 1)).2 x hx).1
      · rcases List.mem_cons.mp hx with rfl | hx'
        · exact ⟨le_refl x, by simp only [List.length_cons]; omega⟩
        · have := (ih (j + 1)).2 x hx'
          exact ⟨by omega, by simp only [List.length_cons]; omega⟩
    · rw [if_neg hm]
      refine ⟨(ih (j + 1)).1, fun x hx => ?_⟩
      have := (ih (j + 1)).2 x hx
      exact ⟨by omega, by simp only [List.length_cons]; omega⟩

/-- Sorted data at increasing in-range indices gives a sorted selection. -/
theorem pairwise_getD_of_lt (data : List Elem) (hs : data.Pairwise measLE) (ixs : List ℕ)
    (hp : ixs.Pairwise (· < ·)) (hb : ∀ j ∈ ixs, j < data.length) :
    (ixs.map (fun i => data.getD i dElem)).Pairwise measLE := by
  rw [List.pairwise_map]
  refine hp.imp_of_mem ?_
  intro a b ha hb2 hlt
  have hba := hb a ha
  have hbb := hb b hb2
  rw [List.getD_eq_getElem data dElem hba, List.getD_eq_getElem data dElem hbb]
  exact List.pairwise_iff_getElem.mp hs a b hba hbb hlt

/-- A successful block copy has a non-decreasing range. -/
theorem copyBlock_some_le {α : Type} (vec : List α) (s e : ℕ) (r : List α)
    (h : copyBlock vec s e = some r) : s ≤ e := by
  unfold copyBlock at h
  split at h
  · omega
  · split at h
    · omega
    · exact Option.noConfusion h

/-- A successful `removeIndicesAux` run forces strictly increasing
indices bounded below by the running block start. -/
theorem removeIndicesAux_some_sorted {α : Type} (vec : List α) : ∀ (l : List ℕ) (bs : ℕ)
    (r : List α), removeIndicesAux vec l bs = some r →
    l.Pairwise (· < ·) ∧ ∀ i ∈ l, bs ≤ i := by
  intro l
  induction l with
  | nil => intro bs r _; simp
  | cons i rest ih =>
    intro bs r h
    simp only [removeIndicesAux] at h
    split at h
    · exact Option.noConfusion h
    · rename_i blk hblk
      split at h
      · exact Option.noConfusion h
      · rename_i tail htail
        obtain ⟨hp, hb⟩ := ih (i + 1) tail htail
        have hbs : bs ≤ i := copyBlock_some_le vec bs i blk hblk
        refine ⟨List.pairwise_cons.mpr ⟨fun j hj => by have := hb j hj; omega, hp⟩, ?_⟩
        intro x hx
        rcases List.mem_cons.mp hx with rfl | hx'
        · exact hbs
        · have := hb x hx'
          omega

/-- A successful `remove_indices` call implies the index list had no
duplicates (duplicates make an invalid block range). -/
theorem remove_indices_some_nodup {α : Type} (vec : List α) (inds : List ℕ) (r : List α)
    (h : remove_indices vec inds = some r) : inds.Nodup := by
  unfold remove_indices at h
  split at h
  · rename_i he
    rw [List.isEmpty_iff] at he
    rw [he]
    exact List.nodup_nil
  · have hp := (removeIndicesAux_some_sorted vec (sortNat inds) 0 r h).1
    have hnd : (sortNat inds).Nodup := hp.imp (fun hab => Nat.ne_of_lt hab)
    exact (List.perm_insertionSort (· ≤ ·) inds).nodup_iff.mp hnd

/-- The reference found by `firstRefAux` is a member of the scanned
index list. -/
theorem firstRefAux_mem (data : List Elem) (R : ℕ) : ∀ (l : List ℕ) (i : ℕ)
    (rest : List ℕ), firstRefAux data R l = some (i, rest) → i ∈ l := by
  intro l
  induction l with
  | nil => intro i rest h; exact Option.noConfusion h
  | cons a tl ih =>
    intro i rest h
    simp only [firstRefAux] at h
    split at h
    · rw [Option.some.injEq, Prod.mk.injEq] at h
      rw [← h.1]
      exact List.mem_cons_self a tl
    · exact List.mem_cons_of_mem a (ih i rest h)

/-- Entries of `mapAssign` keep an old index or use the assigned one. -/
theorem mapAssign_mem (m : List MatchEntry) (k i : ℕ) (t : ℤ) :
    ∀ ent ∈ mapAssign m k i t, ent.idx = i ∨ ∃ e0 ∈ m, ent.idx = e0.idx := by
  intro ent hent
  unfold mapAssign at hent
  obtain ⟨e0, he0, heq⟩ := List.mem_map.mp hent
  by_cases hsrc : e0.src = k
  · rw [if_pos hsrc] at heq
    left
    rw [← heq]
  · rw [if_neg hsrc] at heq
    right
    exact ⟨e0, he0, by rw [← heq]⟩

/-- Entries after the fixed-lag candidate scan come from the initial
map or carry a scanned index. -/
theorem flCandAux_idx (data : List Elem) (R : ℕ) (tRef tNext : ℤ) :
    ∀ (ixs : List ℕ) (acc : List MatchEntry × Bool),
    ∀ ent ∈ (flCandAux data R tRef tNext ixs acc).1,
      (∃ e0 ∈ acc.1, ent.idx = e0.idx) ∨ ent.idx ∈ ixs := by
  intro ixs
  induction ixs with
  | nil => intro acc ent hent; exact Or.inl ⟨ent, hent, rfl⟩
  | cons i rest ih =>
    intro acc ent hent
    simp only [flCandAux] at hent
    split at hent
    · rcases ih acc ent hent with h | h
      · exact Or.inl h
      · exact Or.inr (List.mem_cons_of_mem i h)
    · split at hent
      · split at hent
        · exact Or.inl ⟨ent, hent, rfl⟩
        · exact Or.inl ⟨ent, hent, rfl⟩
      · rename_i hnd2
        split at hent
        · rcases ih _ ent hent with ⟨e0, he0, heq⟩ | h
          · rcases List.mem_append.mp he0 with h0 | h1
            · exact Or.inl ⟨e0, h0, heq⟩
            · rw [List.mem_singleton.mp h1] at heq
              exact Or.inr (by rw [heq]; exact List.mem_cons_self i rest)
          · exact Or.inr (List.mem_cons_of_mem i h)
        · rename_i ent0 hfound
          rcases ih _ ent hent with ⟨e0, he0, heq⟩ | h
          · split at he0
            · rcases mapAssign_mem acc.1 _ i _ e0 he0 with hh | ⟨e1, he1, heq1⟩
              · exact Or.inr (by rw [heq, hh]; exact List.mem_cons_self i rest)
              · exact Or.inl ⟨e1, he1, by rw [heq, heq1]⟩
            · exact Or.inl ⟨e0, he0, heq⟩
          · exact Or.inr (List.mem_cons_of_mem i h)

/-- Placeholder expansion only flips the element's flag: the
measurement time is unchanged. -/
theorem create_placeholders_fst_meas (ops : RealOps) (p : MLParams)
    (infos : List (ℕ × EstState)) (b : ℤ) (e : Elem) :
    (create_placeholders ops p infos b e).1.meas_time = e.meas_time := by
  unfold create_placeholders
  rcases h : estFind infos e.id with _ | est
  · rfl
  · simp only []
    split
    · rfl
    · rfl

/-- The minimal-latency walk only mutates expansion flags: the
measurement-time sequence of the queue is untouched. -/
theorem mlWalkAux_newData_meas (ops : RealOps) (p : MLParams)
    (infos : List (ℕ × EstState)) (buffer : ℤ) : ∀ (l : List Elem) (i : ℕ) (time : ℤ),
    ((mlWalkAux ops p infos buffer l i time).newData).map Elem.meas_time
      = l.map Elem.meas_time := by
  intro l
  induction l with
  | nil => intro i time; rfl
  | cons e tl ih =>
    intro i time
    simp only [mlWalkAux]
    by_cases h1 : e.meas_time < buffer
    · rw [if_pos h1]
      by_cases hph : e.isPH = true
      · rw [if_pos hph]
        show ((create_placeholders ops p infos buffer e).1 ::
          (mlWalkAux ops p infos buffer tl (i + 1) _).newData).map Elem.meas_time = _
        simp only [List.map_cons]
        rw [create_placeholders_fst_meas, ih]
      · rw [if_neg hph]
        show ((create_placeholders ops p infos buffer e).1 ::
          (mlWalkAux ops p infos buffer tl (i + 1) _).newData).map Elem.meas_time = _
        simp only [List.map_cons]
        rw [create_placeholders_fst_meas, ih]
    · rw [if_neg h1]
      by_cases hph : e.isPH = true
      · rw [if_pos hph]
        by_cases h2 : time ≤ e.receipt_time
        · rw [if_pos h2]
        · rw [if_neg h2]
          show ((create_placeholders ops p infos buffer e).1 ::
            (mlWalkAux ops p infos buffer tl (i + 1) _).newData).map Elem.meas_time = _
          simp only [List.map_cons]
          rw [create_placeholders_fst_meas, ih]
      · rw [if_neg hph]
        by_cases h2 : time < e.meas_time
        · rw [if_pos h2]
        · rw [if_neg h2]
          show ((create_placeholders ops p infos buffer e).1 ::
            (mlWalkAux ops p infos buffer tl (i + 1) _).newData).map Elem.meas_time = _
          simp only [List.map_cons]
          rw [create_placeholders_fst_meas, ih]

/-- Indices in the minimal-latency walk's output set: in range and at
or above `buffer_time`. -/
theorem mlWalkAux_out_mem (ops : RealOps) (p : MLParams) (infos : List (ℕ × EstState))
    (buffer : ℤ) : ∀ (l : List Elem) (i : ℕ) (time : ℤ) (j : ℕ),
    j ∈ (mlWalkAux ops p infos buffer l i time).output →
    ∃ k, k < l.length ∧ j = i + k ∧ buffer ≤ (l.getD k dElem).meas_time := by
  intro l
  induction l with
  | nil => intro i time j h; simp [mlWalkAux] at h
  | cons e tl ih =>
    intro i time j h
    simp only [mlWalkAux] at h
    by_cases h1 : e.meas_time < buffer
    · rw [if_pos h1] at h
      by_cases hph : e.isPH = true
      · rw [if_pos hph] at h
        obtain ⟨k, hk, rfl, h3⟩ := ih (i + 1) _ j h
        exact ⟨k + 1, by simpa using hk, by omega, by rw [List.getD_cons_succ]; exact h3⟩
      · rw [if_neg hph] at h
        obtain ⟨k, hk, rfl, h3⟩ := ih (i + 1) _ j h
        exact ⟨k + 1, by simpa using hk, by omega, by rw [List.getD_cons_succ]; exact h3⟩
    · rw [if_neg h1] at h
      by_cases hph : e.isPH = true
      · rw [if_pos hph] at h
        by_cases h2 : time ≤ e.receipt_time
        · rw [if_pos h2] at h
          simp at h
        · rw [if_neg h2] at h
          obtain ⟨k, hk, rfl, h3⟩ := ih (i + 1) _ j h
          exact ⟨k + 1, by simpa using hk, by omega, by rw [List.getD_cons_succ]; exact h3⟩
      · rw [if_neg hph] at h
        by_cases h2 : time < e.meas_time
        · rw [if_pos h2] at h
          simp at h
        · rw [if_neg h2] at h
          have h' : j ∈ i :: (mlWalkAux ops p infos buffer tl (i + 1)
              (if (create_placeholders ops p infos buffer e).2.isEmpty = true then time
                else min time
                  (((create_placeholders ops p infos buffer e).2.getLastD dElem).meas_time))).output := h
          rcases List.mem_cons.mp h' with rfl | h''
          · exact ⟨0, by simp, by omega, by rw [List.getD_cons_zero]; exact not_lt.mp h1⟩
          · obtain ⟨k, hk, rfl, h3⟩ := ih (i + 1) _ j h''
            exact ⟨k + 1, by simpa using hk, by omega, by rw [List.getD_cons_succ]; exact h3⟩

/-- The minimal-latency walk's output indices are strictly increasing
and bounded below by the start index. -/
theorem mlWalkAux_out_pairwise (ops : RealOps) (p : MLParams) (infos : List (ℕ × EstState))
    (buffer : ℤ) : ∀ (l : List Elem) (i : ℕ) (time : ℤ),
    (mlWalkAux ops p infos buffer l i time).output.Pairwise (· < ·)
      ∧ ∀ j ∈ (mlWalkAux ops p infos buffer l i time).output, i ≤ j := by
  intro l
  induction l with
  | nil => intro i time; simp [mlWalkAux]
  | cons e tl ih =>
    intro i time
    simp only [mlWalkAux]
    by_cases h1 : e.meas_time < buffer
    · rw [if_pos h1]
      by_cases hph : e.isPH = true
      · rw [if_pos hph]
        exact ⟨(ih (i + 1) _).1, fun j hj => le_trans (by omega) ((ih (i + 1) _).2 j hj)⟩
      · rw [if_neg hph]
        exact ⟨(ih (i + 1) _).1, fun j hj => le_trans (by omega) ((ih (i + 1) _).2 j hj)⟩
    · rw [if_neg h1]
      by_cases hph : e.isPH = true
      · rw [if_pos hph]
        by_cases h2 : time ≤ e.receipt_time
        · rw [if_pos h2]
          simp
        · rw [if_neg h2]
          exact ⟨(ih (i + 1) _).1, fun j hj => le_trans (by omega) ((ih (i + 1) _).2 j hj)⟩
      · rw [if_neg hph]
        by_cases h2 : time < e.meas_time
        · rw [if_pos h2]
          simp
        · rw [if_neg h2]
          refine ⟨List.pairwise_cons.mpr ⟨fun j hj => ?_, (ih (i + 1) _).1⟩, fun j hj => ?_⟩
          · exact lt_of_lt_of_le (by omega) ((ih (i + 1) _).2 j hj)
          · rcases List.mem_cons.mp hj with rfl | hj'
            · exact le_refl j
            · exact le_trans (by omega) ((ih (i + 1) _).2 j hj')

/-- When the scan beyond the ready set reports no better sample, it
also left the matching map untouched. -/
theorem mlBeyondAux_false (data : List Elem) (R : ℕ) (tRef tNext : ℤ) :
    ∀ (ixs : List ℕ) (acc : List MatchEntry × Bool),
    (mlBeyondAux data R tRef tNext ixs acc).2 = false →
    (mlBeyondAux data R tRef tNext ixs acc).1 = acc.1 := by
  intro ixs
  induction ixs with
  | nil => intro acc _; rfl
  | cons i rest ih =>
    intro acc h
    rw [show mlBeyondAux data R tRef tNext (i :: rest) acc =
        (if (data.getD i dElem).id = R then mlBeyondAux data R tRef tNext rest acc
         else if |(data.getD i dElem).meas_time - tNext|
             < |(data.getD i dElem).meas_time - tRef| then acc
         else
           match mapFind acc.1 (data.getD i dElem).id with
           | none => (acc.1 ++ [⟨(data.getD i dElem).id, 0, none⟩], true)
           | some ent =>
             if tauLt |(data.getD i dElem).meas_time - tRef| ent.tau = true then (acc.1, true)
             else mlBeyondAux data R tRef tNext rest acc) from rfl] at h ⊢
    by_cases hid : (data.getD i dElem).id = R
    · rw [if_pos hid] at h ⊢
      exact ih acc h
    · rw [if_neg hid] at h ⊢
      by_cases hnd : |(data.getD i dElem).meas_time - tNext|
          < |(data.getD i dElem).meas_time - tRef|
      · rw [if_pos hnd] at h ⊢
      · rw [if_neg hnd] at h ⊢
        rcases hfind : mapFind acc.1 (data.getD i dElem).id with _ | ent
        · rw [hfind] at h
          simp at h
        · rw [hfind] at h
          have h' : (if tauLt |(data.getD i dElem).meas_time - tRef| ent.tau = true
              then (acc.1, true) else mlBeyondAux data R tRef tNext rest acc).2 = false := h
          show (if tauLt |(data.getD i dElem).meas_time - tRef| ent.tau = true
              then (acc.1, true) else mlBeyondAux data R tRef tNext rest acc).1 = acc.1
          by_cases htau : tauLt |(data.getD i dElem).meas_time - tRef| ent.tau = true
          · rw [if_pos htau] at h'
            simp at h'
          · rw [if_neg htau] at h' ⊢
            exact ih acc h'

/-- Entries after the ready-set candidate scan come from the initial
map or carry a scanned ready index. -/
theorem mlReadyScanAux_idx (data : List Elem) (R : ℕ) (tRef tNext : ℤ) :
    ∀ (ixs : List ℕ) (acc : MLReadyScan),
    ∀ ent ∈ (mlReadyScanAux data R tRef tNext ixs acc).map,
      (∃ e0 ∈ acc.map, ent.idx = e0.idx) ∨ ent.idx ∈ ixs := by
  intro ixs
  induction ixs with
  | nil => intro acc ent hent; exact Or.inl ⟨ent, hent, rfl⟩
  | cons i rest ih =>
    intro acc ent hent
    simp only [mlReadyScanAux] at hent
    split at hent
    · rcases ih _ ent hent with h | h
      · exact Or.inl h
      · exact Or.inr (List.mem_cons_of_mem i h)
    · split at hent
      · exact Or.inl ⟨ent, hent, rfl⟩
      · split at hent
        · rcases ih _ ent hent with ⟨e0, he0, heq⟩ | h
          · rcases List.mem_append.mp he0 with h0 | h1
            · exact Or.inl ⟨e0, h0, heq⟩
            · rw [List.mem_singleton.mp h1] at heq
              exact Or.inr (by rw [heq]; exact List.mem_cons_self i rest)
          · exact Or.inr (List.mem_cons_of_mem i h)
        · rename_i ent0 hfound
          split at hent
          · rcases ih _ ent hent with ⟨e0, he0, heq⟩ | h
            · rcases mapAssign_mem _ _ i _ e0 he0 with hh | ⟨e1, he1, heq1⟩
              · exact Or.inr (by rw [heq, hh]; exact List.mem_cons_self i rest)
              · exact Or.inl ⟨e1, he1, by rw [heq, heq1]⟩
            · exact Or.inr (List.mem_cons_of_mem i h)
          · rcases ih _ ent hent with ⟨e0, he0, heq⟩ | h
            · exact Or.inl ⟨e0, he0, heq⟩
            · exact Or.inr (List.mem_cons_of_mem i h)

/-- Decomposition of a successful fixed-lag pop. -/
theorem flPop_some_shape (s : FLState) (t : ℤ) (s' : FLState) (r : PopRet)
    (hf : flPop s t = some (s', r)) :
    r.data = (flOutInds s t).1.map (fun i => s.data.getD i dElem)
    ∧ r.discarded_data = (flOutInds s t).2.map (fun i => s.data.getD i dElem)
    ∧ ((flOutInds s t).2 ++ (flOutInds s t).1).Nodup
    ∧ s'.buffer_time = (if r.data.isEmpty = true then s.buffer_time
        else (r.data.getLastD dElem).meas_time)
    ∧ r.buffer_time = s'.buffer_time := by
  simp only [flPop] at hf
  split at hf
  · exact Option.noConfusion hf
  · rename_i d2 hrem
    rw [Option.some.injEq, Prod.mk.injEq] at hf
    obtain ⟨rfl, rfl⟩ := hf
    exact ⟨rfl, rfl, remove_indices_some_nodup _ _ _ hrem, rfl, rfl⟩

/-- Decomposition of a successful minimal-latency pop. -/
theorem mlPop_some_shape (ops : RealOps) (ms : MLState) (u : ℤ) (ms' : MLState)
    (mr : PopRet) (hm : mlPop ops ms u = some (ms', mr)) :
    (mr.data = [] ∧ ms' = ms ∧ mr.buffer_time = ms.buffer_time)
    ∨ (mr.data = (mlOutInds ops ms u).1.map
        (fun i => (mlWalkAux ops ms.params ms.source_infos ms.buffer_time
          ms.data 0 u).newData.getD i dElem)
      ∧ ms'.buffer_time = (if mr.data.isEmpty = true then ms.buffer_time
          else (mr.data.getLastD dElem).meas_time)
      ∧ mr.buffer_time = ms'.buffer_time) := by
  simp only [mlPop] at hm
  split at hm
  · rw [Option.some.injEq, Prod.mk.injEq] at hm
    obtain ⟨rfl, rfl⟩ := hm
    exact Or.inl ⟨rfl, rfl, rfl⟩
  · split at hm
    · exact Option.noConfusion hm
    · rw [Option.some.injEq, Prod.mk.injEq] at hm
      obtain ⟨rfl, rfl⟩ := hm
      exact Or.inr ⟨rfl, rfl, rfl⟩

/-- The minimal-latency batch policy either suppresses the output or
passes the ready set through. -/
theorem mlRunBatching_cases (data : List Elem) (delta : ℤ) (ready : List ℕ) (time : ℤ) :
    mlRunBatching data delta ready time = [] ∨ mlRunBatching data delta ready time = ready := by
  simp only [mlRunBatching]
  split
  · exact Or.inl rfl
  · exact Or.inr rfl

/-- The fixed-lag match decision: empty tuple or the matching map's
indices (with a found reference). -/
theorem flRunMatching_fst_cases (data : List Elem) (R n : ℕ) (ready : List ℕ) :
    (flRunMatching data R n ready).1 = [] ∨
    ((flRunMatching data R n ready).1 = (flMatchScan data R ready).map.map (fun e => e.idx)
      ∧ (flMatchScan data R ready).found_ref = true) := by
  simp only [flRunMatching]
  split
  · exact Or.inl rfl
  · split
    · exact Or.inl rfl
    · rename_i href hlen
      exact Or.inr ⟨rfl, by simpa using href⟩

/-- The minimal-latency match decision: empty tuple or the matching
map's indices (with a found reference and no better sample). -/
theorem mlRunMatching_fst_cases (data : List Elem) (infos : List (ℕ × EstState)) (R : ℕ)
    (ready : List ℕ) :
    (mlRunMatching data infos R ready).1 = [] ∨
    ((mlRunMatching data infos R ready).1
        = (mlMatchScan data infos R ready).map.map (fun e => e.idx)
      ∧ (mlMatchScan data infos R ready).found_ref = true
      ∧ (mlMatchScan data infos R ready).found_better = false) := by
  simp only [mlRunMatching]
  split
  · exact Or.inl rfl
  · split
    · exact Or.inl rfl
    · split
      · exact Or.inl rfl
      · rename_i href hlen hfb
        exact Or.inr ⟨rfl, by simpa using href, by simpa using hfb⟩

/-- A found reference exposes the scan core (fixed-lag). -/
theorem flMatchScan_found_ref (data : List Elem) (R : ℕ) (ready : List ℕ)
    (h : (flMatchScan data R ready).found_ref = true) :
    ∃ refIdx rest, firstRefAux data R ready = some (refIdx, rest)
      ∧ flMatchScan data R ready = flMatchScanCore data R refIdx rest := by
  unfold flMatchScan at *
  cases hfr : firstRefAux data R ready with
  | none => rw [hfr] at h; simp at h
  | some pr => exact ⟨pr.1, pr.2, rfl, rfl⟩

/-- A found reference exposes the scan core (minimal-latency). -/
theorem mlMatchScan_found_ref (data : List Elem) (infos : List (ℕ × EstState)) (R : ℕ)
    (ready : List ℕ) (h : (mlMatchScan data infos R ready).found_ref = true) :
    ∃ refIdx rest, firstRefAux data R (sortNat ready) = some (refIdx, rest)
      ∧ mlMatchScan data infos R ready
          = mlMatchScanCore data infos R (sortNat ready) refIdx rest := by
  simp only [mlMatchScan] at *
  cases hfr : firstRefAux data R (sortNat ready) with
  | none => rw [hfr] at h; simp at h
  | some pr => exact ⟨pr.1, pr.2, rfl, rfl⟩

/-- Indices stored in the fixed-lag matching map: the reference index
or a queue index. -/
theorem flMatchScanCore_map_idx (data : List Elem) (R refIdx : ℕ) (rest : List ℕ) :
    ∀ ent ∈ (flMatchScanCore data R refIdx rest).map,
      ent.idx = refIdx ∨ ent.idx ∈ List.range data.length := by
  intro ent hent
  rcases flCandAux_idx data R _ _ (List.range data.length) _ ent hent with ⟨e0, he0, heq⟩ | h
  · rw [List.mem_singleton.mp he0] at heq
    exact Or.inl heq
  · exact Or.inr h

/-- Indices stored in the minimal-latency matching map when no better
sample was found: the reference index or a sorted ready index. -/
theorem mlMatchScanCore_map_idx (data : List Elem) (infos : List (ℕ × EstState))
    (R : ℕ) (rdy : List ℕ) (refIdx : ℕ) (rest : List ℕ)
    (hb : (mlMatchScanCore data infos R rdy refIdx rest).found_better = false) :
    ∀ ent ∈ (mlMatchScanCore data infos R rdy refIdx rest).map,
      ent.idx = refIdx ∨ ent.idx ∈ rdy := by
  intro ent hent
  simp only [mlMatchScanCore] at hent hb
  have hmap := mlBeyondAux_false data R _ _ _ _ hb
  rw [hmap] at hent
  rcases mlReadyScanAux_idx data R _ _ rdy _ ent hent with ⟨e0, he0, heq⟩ | h
  · rw [List.mem_singleton.mp he0] at heq
    exact Or.inl heq
  · exact Or.inr h

/-- Every output index of the minimal-latency pop comes from the
walk's output set. -/
theorem mlOutInds_fst_mem (ops : RealOps) (ms : MLState) (u : ℤ) :
    ∀ i ∈ (mlOutInds ops ms u).1,
      i ∈ (mlWalkAux ops ms.params ms.source_infos ms.buffer_time ms.data 0 u).output := by
  intro i hi
  unfold mlOutInds at hi
  by_cases c1 : ms.params.mode = BufferMode.BATCH ∧
      ¬ (mlWalkAux ops ms.params ms.source_infos ms.buffer_time ms.data 0 u).output.isEmpty = true
  · rw [if_pos c1] at hi
    rcases mlRunBatching_cases
        (mlWalkAux ops ms.params ms.source_infos ms.buffer_time ms.data 0 u).newData
        ms.params.batch_max_delta
        (mlWalkAux ops ms.params ms.source_infos ms.buffer_time ms.data 0 u).output
        (mlWalkAux ops ms.params ms.source_infos ms.buffer_time ms.data 0 u).time with hb | hb
    · rw [hb] at hi
      simp at hi
    · rw [hb] at hi
      exact hi
  · rw [if_neg c1] at hi
    by_cases c2 : ms.params.mode = BufferMode.MATCH ∧
        ¬ (mlWalkAux ops ms.params ms.source_infos ms.buffer_time ms.data 0 u).output.isEmpty = true
    · rw [if_pos c2] at hi
      rcases mlRunMatching_fst_cases
          (mlWalkAux ops ms.params ms.source_infos ms.buffer_time ms.data 0 u).newData
          ms.source_infos ms.params.match_reference_stream
          (mlWalkAux ops ms.params ms.source_infos ms.buffer_time ms.data 0 u).output
        with h | ⟨hmap, href, hfb⟩
      · rw [h] at hi
        simp at hi
      · rw [hmap] at hi
        obtain ⟨ent, hent, rfl⟩ := List.mem_map.mp hi
        obtain ⟨refIdx, rest, hfr, heq⟩ := mlMatchScan_found_ref _ _ _ _ href
        rw [heq] at hent hfb
        rcases mlMatchScanCore_map_idx _ _ _ _ _ _ hfb ent hent with hidx | hidx
        · rw [hidx]
          exact (List.perm_insertionSort (· ≤ ·) _).mem_iff.mp
            (firstRefAux_mem _ _ _ _ _ hfr)
        · exact (List.perm_insertionSort (· ≤ ·) _).mem_iff.mp hidx
    · rw [if_neg c2] at hi
      exact hi

/-- Measurement times are preserved from the original queue to the
walked queue, position by position. -/
theorem mlWalk_newData_getD_meas (ops : RealOps) (p : MLParams)
    (infos : List (ℕ × EstState)) (buffer : ℤ) (l : List Elem) (time : ℤ) (k : ℕ)
    (hk : k < l.length) :
    ((mlWalkAux ops p infos buffer l 0 time).newData.getD k dElem).meas_time
      = (l.getD k dElem).meas_time := by
  have hmeq := mlWalkAux_newData_meas ops p infos buffer l 0 time
  have hlen : (mlWalkAux ops p infos buffer l 0 time).newData.length = l.length := by
    have := congrArg List.length hmeq
    simpa using this
  rw [List.getD_eq_getElem _ _ (by omega), List.getD_eq_getElem _ _ hk]
  have h2 := congrArg (fun ll => ll[k]?) hmeq
  simp only [List.getElem?_map] at h2
  rw [List.getElem?_eq_getElem (show k < (mlWalkAux ops p infos buffer l 0 time).newData.length by omega),
    List.getElem?_eq_getElem hk] at h2
  simpa using h2

/-- On a sorted queue, every output index of a fixed-lag pop whose
delete list is duplicate-free points strictly above `buffer_time`. -/
theorem flOutInds_fst_above_buffer (s : FLState) (t : ℤ)
    (hsort : s.data.Pairwise measLE)
    (hnd : ((flOutInds s t).2 ++ (flOutInds s t).1).Nodup) :
    ∀ i ∈ (flOutInds s t).1, s.buffer_time < (s.data.getD i dElem).meas_time := by
  intro i hi
  have hi0 := hi
  by_cases c1 : s.params.mode = BufferMode.BATCH ∧
      ¬ (flWalkAux s.buffer_time (t - s.fixed_lag) s.data 0).2.isEmpty = true
  · have heq : (flOutInds s t).1 = flBatchInds s.data s.params.batch_max_delta
        (flWalkAux s.buffer_time (t - s.fixed_lag) s.data 0).2 := by
      simp only [flOutInds]
      rw [if_pos c1]
    rw [heq] at hi
    obtain ⟨-, hne⟩ := c1
    cases hout : (flWalkAux s.buffer_time (t - s.fixed_lag) s.data 0).2 with
    | nil => rw [hout] at hne; simp at hne
    | cons f rest =>
      rw [hout] at hi
      simp only [flBatchInds] at hi
      have hfmem : f ∈ (flWalkAux s.buffer_time (t - s.fixed_lag) s.data 0).2 := by
        rw [hout]
        exact List.mem_cons_self f rest
      obtain ⟨kf, hkfl, hfe, hfgt, -⟩ := flWalkAux_out_mem _ _ s.data 0 f hfmem
      have hkf : kf = f := by omega
      rw [hkf] at hkfl hfgt
      rcases List.mem_cons.mp hi with rfl | hi'
      · exact hfgt
      · have hb := (flBatchAux_mem _ (s.data.drop (f + 1)) (f + 1)).2 i hi'
        have hdl : (s.data.drop (f + 1)).length = s.data.length - (f + 1) := by simp
        have hil : i < s.data.length := by omega
        have hmono : (s.data.getD f dElem).meas_time ≤ (s.data.getD i dElem).meas_time := by
          rw [List.getD_eq_getElem _ _ hkfl, List.getD_eq_getElem _ _ hil]
          exact List.pairwise_iff_getElem.mp hsort f i hkfl hil (by omega)
        exact lt_of_lt_of_le hfgt hmono
  · by_cases c2 : s.params.mode = BufferMode.MATCH ∧
        ¬ (flWalkAux s.buffer_time (t - s.fixed_lag) s.data 0).2.isEmpty = true
    · have heq1 : (flOutInds s t).1 = (flRunMatching s.data s.params.match_reference_stream
          s.params.match_num_streams (flWalkAux s.buffer_time (t - s.fixed_lag) s.data 0).2).1 := by
        simp only [flOutInds]
        rw [if_neg c1, if_pos c2]
      have heq2 : (flOutInds s t).2 = (flWalkAux s.buffer_time (t - s.fixed_lag) s.data 0).1
          ++ (flRunMatching s.data s.params.match_reference_stream
            s.params.match_num_streams (flWalkAux s.buffer_time (t - s.fixed_lag) s.data 0).2).2 := by
        simp only [flOutInds]
        rw [if_neg c1, if_pos c2]
      rw [heq1] at hi
      rcases flRunMatching_fst_cases s.data s.params.match_reference_stream
          s.params.match_num_streams (flWalkAux s.buffer_time (t - s.fixed_lag) s.data 0).2
        with h0 | ⟨hmap, href⟩
      · rw [h0] at hi
        simp at hi
      · rw [hmap] at hi
        obtain ⟨ent, hent, rfl⟩ := List.mem_map.mp hi
        obtain ⟨refIdx, rest, hfr, hsceq⟩ := flMatchScan_found_ref _ _ _ href
        rw [hsceq] at hent
        rcases flMatchScanCore_map_idx _ _ _ _ ent hent with hidx | hidx
        · rw [hidx]
          have hrm : refIdx ∈ (flWalkAux s.buffer_time (t - s.fixed_lag) s.data 0).2 :=
            firstRefAux_mem _ _ _ _ _ hfr
          obtain ⟨k, hk, he, hgt, -⟩ := flWalkAux_out_mem _ _ s.data 0 refIdx hrm
          have hki : k = refIdx := by omega
          rw [hki] at hgt
          exact hgt
        · have hlt : ent.idx < s.data.length := List.mem_range.mp hidx
          by_cases hin2 : ent.idx ∈ (flWalkAux s.buffer_time (t - s.fixed_lag) s.data 0).2
          · obtain ⟨k, hk, he, hgt, -⟩ := flWalkAux_out_mem _ _ s.data 0 _ hin2
            have hki : k = ent.idx := by omega
            rw [hki] at hgt
            exact hgt
          · by_cases hin1 : ent.idx ∈ (flWalkAux s.buffer_time (t - s.fixed_lag) s.data 0).1
            · exfalso
              rw [heq2] at hnd
              exact (List.nodup_append.mp hnd).2.2
                (List.mem_append.mpr (Or.inl hin1)) hi0
            · have := flWalkAux_unclassified s.buffer_time (t - s.fixed_lag) s.data 0 ent.idx
                hsort hlt (by rw [Nat.zero_add]; exact hin2) (by rw [Nat.zero_add]; exact hin1)
              exact this
    · have heq : (flOutInds s t).1 = (flWalkAux s.buffer_time (t - s.fixed_lag) s.data 0).2 := by
        simp only [flOutInds]
        rw [if_neg c1, if_neg c2]
      rw [heq] at hi
      obtain ⟨k, hk, he, hgt, -⟩ := flWalkAux_out_mem _ _ s.data 0 i hi
      have hki : k = i := by omega
      rw [hki] at hgt
      exact hgt

/-- In Single and Batch modes, the fixed-lag output indices are
strictly increasing and in range. -/
theorem flOutInds_fst_incr (s : FLState) (t : ℤ)
    (hfm : s.params.mode = BufferMode.SINGLE ∨ s.params.mode = BufferMode.BATCH) :
    (flOutInds s t).1.Pairwise (· < ·) ∧ ∀ j ∈ (flOutInds s t).1, j < s.data.length := by
  by_cases c1 : s.params.mode = BufferMode.BATCH ∧
      ¬ (flWalkAux s.buffer_time (t - s.fixed_lag) s.data 0).2.isEmpty = true
  · have heq : (flOutInds s t).1 = flBatchInds s.data s.params.batch_max_delta
        (flWalkAux s.buffer_time (t - s.fixed_lag) s.data 0).2 := by
      simp only [flOutInds]
      rw [if_pos c1]
    rw [heq]
    obtain ⟨-, hne⟩ := c1
    cases hout : (flWalkAux s.buffer_time (t - s.fixed_lag) s.data 0).2 with
    | nil => rw [hout] at hne; simp at hne
    | cons f rest =>
      simp only [flBatchInds]
      have hfmem : f ∈ (flWalkAux s.buffer_time (t - s.fixed_lag) s.data 0).2 := by
        rw [hout]
        exact List.mem_cons_self f rest
      obtain ⟨kf, hkfl, hfe, -, -⟩ := flWalkAux_out_mem _ _ s.data 0 f hfmem
      have hkf : kf = f := by omega
      rw [hkf] at hkfl
      have hdl : (s.data.drop (f + 1)).length = s.data.length - (f + 1) := by simp
      constructor
      · refine List.pairwise_cons.mpr ⟨fun x hx => ?_, (flBatchAux_mem _ _ _).1⟩
        have := (flBatchAux_mem _ (s.data.drop (f + 1)) (f + 1)).2 x hx
        omega
      · intro j hj
        rcases List.mem_cons.mp hj with rfl | hj'
        · exact hkfl
        · have := (flBatchAux_mem _ (s.data.drop (f + 1)) (f + 1)).2 j hj'
          omega
  · by_cases c2 : s.params.mode = BufferMode.MATCH ∧
        ¬ (flWalkAux s.buffer_time (t - s.fixed_lag) s.data 0).2.isEmpty = true
    · exfalso
      rcases hfm with h | h
      · rw [h] at c2
        exact absurd c2.1 (by simp)
      · rw [h] at c2
        exact absurd c2.1 (by simp)
    · have heq : (flOutInds s t).1 = (flWalkAux s.buffer_time (t - s.fixed_lag) s.data 0).2 := by
        simp only [flOutInds]
        rw [if_neg c1, if_neg c2]
      rw [heq]
      refine ⟨(flWalkAux_out_pairwise _ _ s.data 0).1, fun j hj => ?_⟩
      obtain ⟨k, hk, he, -, -⟩ := flWalkAux_out_mem _ _ s.data 0 j hj
      omega

/-- In Single and Batch modes, the minimal-latency output indices are
strictly increasing and in range. -/
theorem mlOutInds_fst_incr (ops : RealOps) (ms : MLState) (u : ℤ)
    (hmm : ms.params.mode = BufferMode.SINGLE ∨ ms.params.mode = BufferMode.BATCH) :
    (mlOutInds ops ms u).1.Pairwise (· < ·)
      ∧ ∀ j ∈ (mlOutInds ops ms u).1, j < ms.data.length := by
  have hw : ∀ j ∈ (mlWalkAux ops ms.params ms.source_infos ms.buffer_time ms.data 0 u).output,
      j < ms.data.length := by
    intro j hj
    obtain ⟨k, hk, he, -⟩ := mlWalkAux_out_mem ops ms.params ms.source_infos ms.buffer_time
      ms.data 0 u j hj
    omega
  by_cases c1 : ms.params.mode = BufferMode.BATCH ∧
      ¬ (mlWalkAux ops ms.params ms.source_infos ms.buffer_time ms.data 0 u).output.isEmpty = true
  · have heq : (mlOutInds ops ms u).1 = mlRunBatching
        (mlWalkAux ops ms.params ms.source_infos ms.buffer_time ms.data 0 u).newData
        ms.params.batch_max_delta
        (mlWalkAux ops ms.params ms.source_infos ms.buffer_time ms.data 0 u).output
        (mlWalkAux ops ms.params ms.source_infos ms.buffer_time ms.data 0 u).time := by
      simp only [mlOutInds]
      rw [if_pos c1]
    rw [heq]
    rcases mlRunBatching_cases
        (mlWalkAux ops ms.params ms.source_infos ms.buffer_time ms.data 0 u).newData
        ms.params.batch_max_delta
        (mlWalkAux ops ms.params ms.source_infos ms.buffer_time ms.data 0 u).output
        (mlWalkAux ops ms.params ms.source_infos ms.buffer_time ms.data 0 u).time with hb | hb
    · rw [hb]
      simp
    · rw [hb]
      exact ⟨(mlWalkAux_out_pairwise ops ms.params ms.source_infos ms.buffer_time
        ms.data 0 u).1, hw⟩
  · by_cases c2 : ms.params.mode = BufferMode.MATCH ∧
        ¬ (mlWalkAux ops ms.params ms.source_infos ms.buffer_time ms.data 0 u).output.isEmpty = true
    · exfalso
      rcases hmm with h | h
      · rw [h] at c2
        exact absurd c2.1 (by simp)
      · rw [h] at c2
        exact absurd c2.1 (by simp)
    · have heq : (mlOutInds ops ms u).1
          = (mlWalkAux ops ms.params ms.source_infos ms.buffer_time ms.data 0 u).output := by
        simp only [mlOutInds]
        rw [if_neg c1, if_neg c2]
      rw [heq]
      exact ⟨(mlWalkAux_out_pairwise ops ms.params ms.source_infos ms.buffer_time
        ms.data 0 u).1, hw⟩

/-- Sortedness of the queue survives the walk (only flags change). -/
theorem mlWalk_newData_sorted (ops : RealOps) (p : MLParams) (infos : List (ℕ × EstState))
    (buffer : ℤ) (l : List Elem) (time : ℤ) (h : l.Pairwise measLE) :
    ((mlWalkAux ops p infos buffer l 0 time).newData).Pairwise measLE := by
  have hmeq := mlWalkAux_newData_meas ops p infos buffer l 0 time
  have h1 : (l.map Elem.meas_time).Pairwise (· ≤ ·) :=
    List.pairwise_map.mpr (h.imp (fun hx => hx))
  rw [← hmeq] at h1
  exact (List.pairwise_map.mp h1).imp (fun hx => hx)

/-- The walk preserves the queue length. -/
theorem mlWalk_newData_length (ops : RealOps) (p : MLParams) (infos : List (ℕ × EstState))
    (buffer : ℤ) (l : List Elem) (time : ℤ) :
    (mlWalkAux ops p infos buffer l 0 time).newData.length = l.length := by
  have := congrArg List.length (mlWalkAux_newData_meas ops p infos buffer l 0 time)
  simpa using this

/-- Claim C1 (amended): on a measurement-sorted queue, a successful
fixed-lag pop releases only samples with `meas_time` strictly above the
entry `buffer_time`, while a successful minimal-latency pop releases
only samples with `meas_time` at or above the entry `buffer_time`
(equality is reachable, so the bound is not strict there); in both
buffers `buffer_time` never decreases across the pop and the returned
`buffer_time` equals the post-state value. -/
theorem buffer_release_bound (s : FLState) (ms : MLState) (ops : RealOps)
    (t u : ℤ) (s' : FLState) (r : PopRet) (ms' : MLState) (mr : PopRet)
    (hsort : s.data.Pairwise measLE)
    (hf : flPop s t = some (s', r)) (hm : mlPop ops ms u = some (ms', mr)) :
    ((∀ d ∈ r.data, s.buffer_time < d.meas_time)
      ∧ s.buffer_time ≤ s'.buffer_time ∧ r.buffer_time = s'.buffer_time)
    ∧ ((∀ d ∈ mr.data, ms.buffer_time ≤ d.meas_time)
      ∧ ms.buffer_time ≤ ms'.buffer_time ∧ mr.buffer_time = ms'.buffer_time) := by
  obtain ⟨hdata, hdisc, hnd, hbuf, hrbuf⟩ := flPop_some_shape s t s' r hf
  have hstrict : ∀ d ∈ r.data, s.buffer_time < d.meas_time := by
    intro d hd
    rw [hdata] at hd
    obtain ⟨i, hi, rfl⟩ := List.mem_map.mp hd
    exact flOutInds_fst_above_buffer s t hsort hnd i hi
  refine ⟨⟨hstrict, ?_, hrbuf⟩, ?_⟩
  · rw [hbuf]
    cases hre : r.data.isEmpty with
    | true => simp
    | false =>
      rw [if_neg (by simp)]
      have hne : r.data ≠ [] := by
        intro h0
        rw [h0] at hre
        simp at hre
      exact le_of_lt (hstrict _ (getLastD_mem_of_ne r.data dElem hne))
  · rcases mlPop_some_shape ops ms u ms' mr hm with ⟨hd0, hseq, hb0⟩ | ⟨hdata', hbuf', hrbuf'⟩
    · refine ⟨?_, ?_, ?_⟩
      · rw [hd0]
        intro d hd
        simp at hd
      · rw [hseq]
      · rw [hb0, hseq]
    · have hge : ∀ d ∈ mr.data, ms.buffer_time ≤ d.meas_time := by
        intro d hd
        rw [hdata'] at hd
        obtain ⟨i, hi, rfl⟩ := List.mem_map.mp hd
        have hiw := mlOutInds_fst_mem ops ms u i hi
        obtain ⟨k, hk, he, hgeq⟩ := mlWalkAux_out_mem ops ms.params ms.source_infos
          ms.buffer_time ms.data 0 u i hiw
        have hki : k = i := by omega
        rw [hki] at hk hgeq
        rw [mlWalk_newData_getD_meas ops ms.params ms.source_infos ms.buffer_time
          ms.data u i hk]
        exact hgeq
      refine ⟨hge, ?_, hrbuf'⟩
      rw [hbuf']
      cases hre : mr.data.isEmpty with
      | true => simp
      | false =>
        rw [if_neg (by simp)]
        have hne : mr.data ≠ [] := by
          intro h0
          rw [h0] at hre
          simp at hre
        exact hge _ (getLastD_mem_of_ne mr.data dElem hne)

set_option maxRecDepth 8000 in
/-- Concrete instantiation of `buffer_release_bound` on the C1 traces. -/
theorem buffer_release_bound_witness :
    (∀ d ∈ ((flPop c1FLState 20).getD dFL).2.data,
        c1FLState.buffer_time < d.meas_time)
    ∧ (∀ d ∈ ((mlPop opsZ c1s1 10).getD dML).2.data,
        c1s1.buffer_time ≤ d.meas_time) :=
  ⟨(buffer_release_bound c1FLState c1s1 opsZ 20 10
      ((flPop c1FLState 20).getD dFL).1 ((flPop c1FLState 20).getD dFL).2
      ((mlPop opsZ c1s1 10).getD dML).1 ((mlPop opsZ c1s1 10).getD dML).2
      (by decide) (by rfl) (by rfl)).1.1,
   (buffer_release_bound c1FLState c1s1 opsZ 20 10
      ((flPop c1FLState 20).getD dFL).1 ((flPop c1FLState 20).getD dFL).2
      ((mlPop opsZ c1s1 10).getD dML).1 ((mlPop opsZ c1s1 10).getD dML).2
      (by decide) (by rfl) (by rfl)).2.1⟩

/-- Claim C9 (amended): in Single and Batch modes a successful pop of
either buffer on a measurement-sorted queue returns release data sorted
by `meas_time`; in Match mode the output order follows the matching map
and may be unsorted (see the counterexample). -/
theorem single_batch_output_sorted (s : FLState) (ms : MLState) (ops : RealOps)
    (t u : ℤ) (s' : FLState) (r : PopRet) (ms' : MLState) (mr : PopRet)
    (hfm : s.params.mode = BufferMode.SINGLE ∨ s.params.mode = BufferMode.BATCH)
    (hmm : ms.params.mode = BufferMode.SINGLE ∨ ms.params.mode = BufferMode.BATCH)
    (hsort : s.data.Pairwise measLE) (hmsort : ms.data.Pairwise measLE)
    (hf : flPop s t = some (s', r)) (hm : mlPop ops ms u = some (ms', mr)) :
    r.data.Pairwise measLE ∧ mr.data.Pairwise measLE := by
  constructor
  · obtain ⟨hdata, -, -, -, -⟩ := flPop_some_shape s t s' r hf
    rw [hdata]
    exact pairwise_getD_of_lt s.data hsort _ (flOutInds_fst_incr s t hfm).1
      (flOutInds_fst_incr s t hfm).2
  · rcases mlPop_some_shape ops ms u ms' mr hm with ⟨hd0, -, -⟩ | ⟨hdata', -, -⟩
    · rw [hd0]
      exact List.Pairwise.nil
    · rw [hdata']
      have hnds := mlWalk_newData_sorted ops ms.params ms.source_infos ms.buffer_time
        ms.data u hmsort
      have hlen := mlWalk_newData_length ops ms.params ms.source_infos ms.buffer_time
        ms.data u
      refine pairwise_getD_of_lt _ hnds _ (mlOutInds_fst_incr ops ms u hmm).1 ?_
      intro j hj
      have := (mlOutInds_fst_incr ops ms u hmm).2 j hj
      omega

set_option maxRecDepth 8000 in
/-- Concrete instantiation of `single_batch_output_sorted` on the C1
traces. -/
theorem single_batch_output_sorted_witness :
    ((flPop c1FLState 20).getD dFL).2.data.Pairwise measLE
    ∧ ((mlPop opsZ c1s1 10).getD dML).2.data.Pairwise measLE :=
  single_batch_output_sorted c1FLState c1s1 opsZ 20 10
    ((flPop c1FLState 20).getD dFL).1 ((flPop c1FLState 20).getD dFL).2
    ((mlPop opsZ c1s1 10).getD dML).1 ((mlPop opsZ c1s1 10).getD dML).2
    (by decide) (by decide) (by decide) (by decide) (by rfl) (by rfl)
